import Mathlib

/-!
# Circle drawing with OpenMP: a verification development

A shallow embedding of `src/circle_drawing.cpp` and the properties of it that
the specification states.

Modelling conventions.

* `double` values are elements of an ordered field `α`. Every arithmetic
  operation on `double` is the exact operation followed by a rounding
  `fl : α → α`, a parameter of the definitions. Exact real arithmetic is
  `fl = id`; IEEE binary64 arithmetic is `fl = round_double`, which rounds to
  the nearest value with a 53-bit significand, ties to even, for values in
  the normal range.
* `M_PI` and the `<cmath>` functions `sin` and `cos` are not part of the
  source file; they are parameters `pi`, `sin`, `cos` of the definitions.
  Exact arithmetic takes `Real.pi`, `Real.sin`, `Real.cos`; binary64 takes
  `M_PI_double` and the correctly rounded sine and cosine.
* A `while` loop whose end depends on the arithmetic takes a bound `fuel` on
  the number of times its test is evaluated and returns `none` when the bound
  is reached: a loop that returns `none` for every `fuel` never ends.
* An `int` that the program computes by an addition or a multiplication wraps
  around modulo `2 ^ 32` (`wrap_int`), as the compiled program does. The
  conversion of a `double` to `int` is the truncation; it is defined when the
  truncated value is in the range of `int`, which `no_overflow` states. The
  counters `i` and `j` of the loops of the series start at `0` or `1`, only
  grow and stay below `terms + 2`; they are natural numbers.
* An OpenMP work-sharing loop hands every iteration of the loop to exactly
  one thread of the team. A sharing gives the list of the threads' chunks; it
  is fair when the chunks together are a permutation of the iterations.
-/

namespace CircleDrawing

/-! ## Constants -/

/-- The constant `WINDOW_WIDTH`. -/
def WINDOW_WIDTH : ℤ := 800

/-- The constant `WINDOW_HEIGHT`. -/
def WINDOW_HEIGHT : ℤ := 800

/-- The constant `NUM_POINTS`. -/
def NUM_POINTS : ℕ := 3600000

/-- The constant `TAYLOR_TERMS`. -/
def TAYLOR_TERMS : ℤ := 10

/-! ## Machine arithmetic -/

/-- The values of the type `int`. -/
def fits_int (v : ℤ) : Prop :=
  -2147483648 ≤ v ∧ v ≤ 2147483647

instance (v : ℤ) : Decidable (fits_int v) := by
  unfold fits_int
  infer_instance

/-- The `int` that an `int` addition or multiplication with the exact result
`v` leaves: `v` modulo `2 ^ 32`, in the range of `int`. -/
def wrap_int (v : ℤ) : ℤ :=
  (v + 2147483648) % 4294967296 - 2147483648

section Rounding

variable {α : Type} [LinearOrderedField α] [FloorRing α]

/-- Rounding to the nearest integer, ties to the even one. -/
def round_half_even (v : α) : ℤ :=
  if v - ⌊v⌋ < 1 / 2 then ⌊v⌋
  else if 1 / 2 < v - ⌊v⌋ then ⌊v⌋ + 1
  else if ⌊v⌋ % 2 = 0 then ⌊v⌋
  else ⌊v⌋ + 1

/-- Rounding to binary64 in the normal range: with `2 ^ e ≤ |v| < 2 ^ (e + 1)`
the result is the multiple of `2 ^ (e - 52)` nearest to `v`, ties to even. -/
def round_double (v : α) : α :=
  if v = 0 then 0
  else (round_half_even (v / 2 ^ (Int.log 2 |v| - 52)) : α) * 2 ^ (Int.log 2 |v| - 52)

/-- The binary64 value of `M_PI`, `884279719003555 / 2 ^ 48`. -/
def M_PI_double : α := 884279719003555 / 281474976710656

/-- The conversion `static_cast<int>` of a `double`: truncation toward zero. -/
def static_cast_int (v : α) : ℤ :=
  if 0 ≤ v then ⌊v⌋ else ⌈v⌉

end Rounding

/-! ## Range reduction -/

section Series

variable {α : Type} [LinearOrderedField α]

/-- The loop `while (x > M_PI) x -= 2 * M_PI;`. -/
def reduce_down (fl : α → α) (pi : α) : ℕ → α → Option α
  | 0, _ => none
  | fuel + 1, x => if x > pi then reduce_down fl pi fuel (fl (x - fl (2 * pi))) else some x

/-- The loop `while (x < -M_PI) x += 2 * M_PI;`. -/
def reduce_up (fl : α → α) (pi : α) : ℕ → α → Option α
  | 0, _ => none
  | fuel + 1, x => if x < -pi then reduce_up fl pi fuel (fl (x + fl (2 * pi))) else some x

/-- The two normalisation loops that open `taylor_sine` and `taylor_cosine`. -/
def normalize (fl : α → α) (pi : α) (fuel : ℕ) (x : α) : Option α :=
  (reduce_down fl pi fuel x).bind (reduce_up fl pi fuel)

/-! ## The series -/

/-- The loop `for (int j = 1; j <= i; ++j) term_factorial *= j;`, entered with
counter `j` and accumulator `term_factorial`. -/
def factorial_loop (fl : α → α) (i j : ℕ) (term_factorial : α) : α :=
  if j ≤ i then factorial_loop fl i (j + 1) (fl (term_factorial * (j : α)))
  else term_factorial
termination_by i + 1 - j

/-- The loop `for (int j = 1; j <= i; ++j) term_power *= x;`, entered with
counter `j` and accumulator `term_power`. -/
def power_loop (fl : α → α) (x : α) (i j : ℕ) (term_power : α) : α :=
  if j ≤ i then power_loop fl x i (j + 1) (fl (term_power * x)) else term_power
termination_by i + 1 - j

/-- The value `term` that the body of the loop of `taylor_sine` computes at
exponent `i`. -/
def sine_term (fl : α → α) (x : α) (i : ℕ) : α :=
  let term_factorial : α := factorial_loop fl i 1 1
  let term_power : α := power_loop fl x i 1 1
  fl (fl ((if i % 4 = 1 then 1 else -1) * term_power) / term_factorial)

/-- The value `term` that the body of the loop of `taylor_cosine` computes at
exponent `i`. -/
def cosine_term (fl : α → α) (x : α) (i : ℕ) : α :=
  let term_factorial : α := factorial_loop fl i 1 1
  let term_power : α := power_loop fl x i 1 1
  fl (fl ((if i % 4 = 0 then 1 else -1) * term_power) / term_factorial)

/-- The values the counter of `for (int i = start; i <= terms; i += 2)` takes,
in order, from the value `i` on. -/
def loop_iterations (terms : ℤ) (i : ℕ) : List ℕ :=
  if (i : ℤ) ≤ terms then i :: loop_iterations terms (i + 2) else []
termination_by (terms + 1 - i).toNat
decreasing_by omega

/-- One thread of a parallel region of `taylor_sine` or `taylor_cosine`: it
starts `local_result` at `0.0` and adds the term of each iteration of its
chunk, in order. -/
def thread_local_result (fl : α → α) (term : ℕ → α) (chunk : List ℕ) : α :=
  chunk.foldl (fun local_result i => fl (local_result + term i)) 0

/-- The region `#pragma omp parallel reduction(+:result)`: every thread adds
its `local_result` to its private copy of `result`, which starts at zero, and
the private copies are added to the original `result = 0.0`. -/
def parallel_reduction (fl : α → α) (term : ℕ → α) (team : List (List ℕ)) : α :=
  team.foldl (fun result chunk => fl (result + fl (0 + thread_local_result fl term chunk))) 0

/-- A way to share the iterations of a work-sharing loop among the threads of
a team: the list of the threads' chunks. -/
abbrev Sharing := List ℕ → List (List ℕ)

/-- The sharing of a team of one thread, which takes all iterations in order. -/
def one_thread : Sharing := fun iterations => [iterations]

/-- The function `taylor_sine`, its loop over `i = 1, 3, ...` shared among the
threads of the team by `share`. -/
def taylor_sine_team (fl : α → α) (pi : α) (fuel : ℕ) (x : α) (terms : ℤ)
    (share : Sharing) : Option α :=
  (normalize fl pi fuel x).map fun x =>
    parallel_reduction fl (sine_term fl x) (share (loop_iterations terms 1))

/-- The function `taylor_cosine`, its loop over `i = 0, 2, ...` shared among
the threads of the team by `share`. -/
def taylor_cosine_team (fl : α → α) (pi : α) (fuel : ℕ) (x : α) (terms : ℤ)
    (share : Sharing) : Option α :=
  (normalize fl pi fuel x).map fun x =>
    parallel_reduction fl (cosine_term fl x) (share (loop_iterations terms 0))

/-- The function `taylor_sine` run by a team of one thread. -/
def taylor_sine (fl : α → α) (pi : α) (fuel : ℕ) (x : α) (terms : ℤ) : Option α :=
  taylor_sine_team fl pi fuel x terms one_thread

/-- The function `taylor_cosine` run by a team of one thread. -/
def taylor_cosine (fl : α → α) (pi : α) (fuel : ℕ) (x : α) (terms : ℤ) : Option α :=
  taylor_cosine_team fl pi fuel x terms one_thread

end Series

/-! ## Point generation -/

/-- The SDL structure `SDL_Point`. -/
structure SDL_Point where
  x : ℤ
  y : ℤ
deriving DecidableEq, Repr

/-- The call `points.resize(n)`: the first `n` entries are kept and the buffer
is filled up to length `n` with value-initialised points. -/
def vector_resize (points : List SDL_Point) (n : ℕ) : List SDL_Point :=
  points.take n ++ List.replicate (n - points.length) ⟨0, 0⟩

/-- The choices the OpenMP runtime makes in one call of
`compute_circle_points`, each a function of the thread count set by
`omp_set_num_threads`: how the loop over the points is shared, and for the
point of index `i` how the loops of `taylor_sine` and `taylor_cosine` are. -/
structure Runtime where
  share_points : ℕ → Sharing
  share_sine : ℕ → ℕ → Sharing
  share_cosine : ℕ → ℕ → Sharing

/-- The runtime that gives every region a team of one thread. -/
def serial_runtime : Runtime where
  share_points := fun _ => one_thread
  share_sine := fun _ _ => one_thread
  share_cosine := fun _ _ => one_thread

/-- A runtime that deals the points to the threads in turn and hands the
exponents of the series to two threads, the second thread first. -/
def round_robin_runtime : Runtime where
  share_points := fun num_threads iterations =>
    (List.range num_threads).map fun t => iterations.filter fun i => i % num_threads = t
  share_sine := fun _ _ iterations =>
    [iterations.filter fun i => i % 4 = 3, iterations.filter fun i => i % 4 ≠ 3]
  share_cosine := fun _ _ iterations =>
    [iterations.filter fun i => i % 4 = 2, iterations.filter fun i => i % 4 ≠ 2]

/-- A sharing is fair on a loop when every iteration of the loop is in exactly
one chunk. -/
def Fair (share : Sharing) (iterations : List ℕ) : Prop :=
  (share iterations).flatten.Perm iterations

/-- A runtime is fair for `n` points, series of `terms` terms and
`num_threads` threads when all the sharings it chooses are. -/
def Runtime.Fair (rt : Runtime) (n : ℕ) (terms : ℤ) (num_threads : ℕ) : Prop :=
  CircleDrawing.Fair (rt.share_points num_threads) (List.range n) ∧
  (∀ i, CircleDrawing.Fair (rt.share_sine num_threads i) (loop_iterations terms 1)) ∧
  ∀ i, CircleDrawing.Fair (rt.share_cosine num_threads i) (loop_iterations terms 0)

section Points

variable {α : Type} [LinearOrderedField α] [FloorRing α]

/-- The value `angle` of the body of the loop of `compute_circle_points` at
index `i`, `2.0 * M_PI * i / NUM_POINTS`. The constant `NUM_POINTS` is the
parameter `n`. -/
def circle_angle (n : ℕ) (fl : α → α) (pi : α) (i : ℕ) : α :=
  fl (fl (fl (2 * pi) * (i : α)) / (n : α))

/-- The values `(cos_value, sin_value)` of the body of the loop of
`compute_circle_points` at index `i`. -/
def trig_values (n : ℕ) (fl : α → α) (pi : α) (sin cos : α → α) (fuel : ℕ)
    (use_taylor : Bool) (num_threads : ℕ) (rt : Runtime) (i : ℕ) : Option (α × α) :=
  let angle : α := circle_angle n fl pi i
  if use_taylor then
    (taylor_cosine_team fl pi fuel angle TAYLOR_TERMS (rt.share_cosine num_threads i)).bind
      fun cos_value =>
        (taylor_sine_team fl pi fuel angle TAYLOR_TERMS (rt.share_sine num_threads i)).map
          fun sin_value => (cos_value, sin_value)
  else some (cos angle, sin angle)

/-- The point `{x, y}` that the body of the loop of `compute_circle_points`
makes of `cos_value` and `sin_value`. -/
def make_point (fl : α → α) (center_x center_y radius : ℤ) (cos_value sin_value : α) :
    SDL_Point :=
  let x : ℤ := wrap_int (static_cast_int (fl ((radius : α) * cos_value)) + center_x)
  let y : ℤ := wrap_int (static_cast_int (fl ((radius : α) * sin_value)) + center_y)
  ⟨x, y⟩

/-- The conversions and additions that make the point of `cos_value` and
`sin_value` stay in the range of `int`. -/
def no_overflow (fl : α → α) (center_x center_y radius : ℤ) (cos_value sin_value : α) :
    Prop :=
  fits_int (static_cast_int (fl ((radius : α) * cos_value))) ∧
  fits_int (static_cast_int (fl ((radius : α) * cos_value)) + center_x) ∧
  fits_int (static_cast_int (fl ((radius : α) * sin_value))) ∧
  fits_int (static_cast_int (fl ((radius : α) * sin_value)) + center_y)

/-- The body of the loop of `compute_circle_points` at index `i`: the point it
stores in `points[i]`, if the calls of the Taylor backend return. -/
def circle_point (n : ℕ) (fl : α → α) (pi : α) (sin cos : α → α) (fuel : ℕ)
    (center_x center_y radius : ℤ) (use_taylor : Bool) (num_threads : ℕ)
    (rt : Runtime) (i : ℕ) : Option SDL_Point :=
  (trig_values n fl pi sin cos fuel use_taylor num_threads rt i).map fun values =>
    make_point fl center_x center_y radius values.1 values.2

/-- The function `compute_circle_points`, which returns the buffer `points` as
it leaves it, if every iteration returns. The iterations write distinct
entries and read none, so running the chunks of the threads one after the
other gives what any interleaving of them does. The constant `NUM_POINTS` is
the parameter `n`. -/
def compute_circle_points (n : ℕ) (fl : α → α) (pi : α) (sin cos : α → α) (fuel : ℕ)
    (center_x center_y radius : ℤ) (points : List SDL_Point) (use_taylor : Bool)
    (num_threads : ℕ) (rt : Runtime) : Option (List SDL_Point) :=
  let points := vector_resize points n
  ((rt.share_points num_threads (List.range n)).flatten).foldl
    (fun state i =>
      state.bind fun points =>
        (circle_point n fl pi sin cos fuel center_x center_y radius use_taylor
          num_threads rt i).map fun point => points.set i point)
    (some points)

end Points

/-- The square of the Euclidean distance of a point from the centre. -/
def dist_sq (p : SDL_Point) (center_x center_y : ℤ) : ℤ :=
  (p.x - center_x) ^ 2 + (p.y - center_y) ^ 2

/-! ## The benchmark of `main` -/

/-- One row of the table that `main` prints, without the time: the label, the
backend and the thread count of the call of `compute_circle_points` it times. -/
structure BenchRow where
  label : String
  use_taylor : Bool
  threads : ℤ
deriving DecidableEq, Repr

/-- The values the counter of
`for (int num_threads = 2; num_threads <= max_threads; num_threads *= 2)`
takes, in order, from the value `num_threads` on, if the loop ends. -/
def doubling_loop (max_threads : ℤ) : ℕ → ℤ → Option (List ℤ)
  | 0, _ => none
  | fuel + 1, num_threads =>
    if num_threads ≤ max_threads then
      (doubling_loop max_threads fuel (wrap_int (num_threads * 2))).map
        fun counts => num_threads :: counts
    else some []

/-- The rows that the benchmark of `main` (lines 162 to 205) prints, in order,
when `omp_get_max_threads()` returns `max_threads`, if its loops end. -/
def benchmark_rows (fuel : ℕ) (max_threads : ℤ) : Option (List BenchRow) :=
  (doubling_loop max_threads fuel 2).bind fun math_counts =>
    (doubling_loop max_threads fuel 2).map fun taylor_counts =>
      [⟨"Serial (math.h)", false, 1⟩, ⟨"Serial (Taylor)", true, 1⟩] ++
        math_counts.map (fun num_threads => ⟨"Parallel (math.h)", false, num_threads⟩) ++
        taylor_counts.map (fun num_threads => ⟨"Parallel (Taylor)", true, num_threads⟩)

/-- The rows that `main` prints: none when `SDL_Init`, `SDL_CreateWindow` or
`SDL_CreateRenderer` fails, since `main` then returns before the benchmark. -/
def main_rows (sdl_init window renderer : Bool) (fuel : ℕ) (max_threads : ℤ) :
    Option (List BenchRow) :=
  if !sdl_init then some []
  else if !window then some []
  else if !renderer then some []
  else benchmark_rows fuel max_threads

/-- The circle parameters `center_x`, `center_y` and `radius` of `main`. -/
def main_circle : ℤ × ℤ × ℤ :=
  (WINDOW_WIDTH / 2, WINDOW_HEIGHT / 2, min WINDOW_WIDTH WINDOW_HEIGHT / 3)

/-! ## The loops of the series in exact arithmetic -/

section SeriesLemmas

variable {α : Type} [LinearOrderedField α]

theorem factorial_loop_spec (i : ℕ) : ∀ (d j : ℕ) (c : α), j + d = i + 1 → 1 ≤ j →
    factorial_loop id i j (c * ((j - 1).factorial : α)) = c * (i.factorial : α) := by
  intro d
  induction d with
  | zero =>
    intro j c h hj
    rw [factorial_loop, if_neg (by omega)]
    have : j - 1 = i := by omega
    rw [this]
  | succ d ih =>
    intro j c h hj
    rw [factorial_loop, if_pos (by omega), id_eq]
    have hstep : c * ((j - 1).factorial : α) * (j : α) = c * (((j + 1) - 1).factorial : α) := by
      have : j + 1 - 1 = (j - 1) + 1 := by omega
      rw [this, Nat.factorial_succ]
      have h2 : j - 1 + 1 = j := by omega
      rw [h2]
      push_cast
      ring
    rw [hstep]
    exact ih (j + 1) c (by omega) (by omega)

theorem factorial_loop_eq (i : ℕ) : factorial_loop id i 1 (1 : α) = (i.factorial : α) := by
  have h := factorial_loop_spec i i 1 (1 : α) (by omega) (by omega)
  simpa using h

theorem power_loop_spec (x : α) (i : ℕ) : ∀ (d j : ℕ) (c : α), j + d = i + 1 →
    power_loop id x i j c = c * x ^ d := by
  intro d
  induction d with
  | zero =>
    intro j c h
    rw [power_loop, if_neg (by omega)]
    simp
  | succ d ih =>
    intro j c h
    rw [power_loop, if_pos (by omega), id_eq, ih (j + 1) (c * x) (by omega)]
    ring

theorem power_loop_eq (x : α) (i : ℕ) : power_loop id x i 1 1 = x ^ i := by
  rw [power_loop_spec x i i 1 1 (by omega)]
  simp

theorem sine_term_eq (x : α) (i : ℕ) :
    sine_term id x i = (if i % 4 = 1 then 1 else -1) * x ^ i / (i.factorial : α) := by
  simp only [sine_term, factorial_loop_eq, power_loop_eq, id_eq]

theorem cosine_term_eq (x : α) (i : ℕ) :
    cosine_term id x i = (if i % 4 = 0 then 1 else -1) * x ^ i / (i.factorial : α) := by
  simp only [cosine_term, factorial_loop_eq, power_loop_eq, id_eq]

theorem loop_iterations_spec (terms : ℕ) : ∀ (c s : ℕ), c = (terms + 2 - s) / 2 →
    loop_iterations (terms : ℤ) s = (List.range c).map (fun m => s + 2 * m) := by
  intro c
  induction c with
  | zero =>
    intro s h
    rw [loop_iterations, if_neg (by omega)]
    simp
  | succ c ih =>
    intro s h
    rw [loop_iterations, if_pos (by omega), ih (s + 2) (by omega), List.range_succ_eq_map]
    simp only [List.map_cons, List.map_map, Nat.mul_zero, Nat.add_zero]
    congr 1
    apply List.map_congr_left
    intro m _
    simp only [Function.comp]
    omega

theorem thread_local_result_eq (term : ℕ → α) (chunk : List ℕ) :
    thread_local_result id term chunk = (chunk.map term).sum := by
  unfold thread_local_result
  simp only [id_eq]
  have : ∀ (l : List ℕ) (a : α), l.foldl (fun r i => r + term i) a
      = a + (l.map term).sum := by
    intro l
    induction l with
    | nil => intro a; simp
    | cons b l ih => intro a; simp [ih, add_assoc]
  rw [this]; simp

theorem parallel_reduction_eq (term : ℕ → α) (team : List (List ℕ)) :
    parallel_reduction id term team = (team.flatten.map term).sum := by
  unfold parallel_reduction
  simp only [id_eq]
  have : ∀ (l : List (List ℕ)) (a : α),
      l.foldl (fun r chunk => r + (0 + thread_local_result id term chunk)) a
        = a + (l.flatten.map term).sum := by
    intro l
    induction l with
    | nil => intro a; simp
    | cons b l ih =>
      intro a
      rw [List.foldl_cons, ih, thread_local_result_eq]
      simp [add_assoc]
  rw [this]; simp

theorem parallel_reduction_fair (term : ℕ → α) (share : Sharing) (iterations : List ℕ)
    (h : Fair share iterations) :
    parallel_reduction id term (share iterations) = (iterations.map term).sum := by
  rw [parallel_reduction_eq]
  exact (h.map term).sum_eq

theorem fair_one_thread (iterations : List ℕ) : Fair one_thread iterations := by
  simp [Fair, one_thread]

end SeriesLemmas

/-! ## Properties of the range reduction -/

section ReductionLemmas

variable {α : Type} [LinearOrderedField α]

theorem reduce_down_of_le (fl : α → α) (pi : α) (fuel : ℕ) (x : α) (h : x ≤ pi) :
    reduce_down fl pi (fuel + 1) x = some x := by
  rw [reduce_down, if_neg (not_lt.mpr h)]

theorem reduce_up_of_ge (fl : α → α) (pi : α) (fuel : ℕ) (x : α) (h : -pi ≤ x) :
    reduce_up fl pi (fuel + 1) x = some x := by
  rw [reduce_up, if_neg (not_lt.mpr h)]

theorem normalize_of_mem (fl : α → α) (pi : α) (fuel : ℕ) (x : α) (h1 : -pi ≤ x)
    (h2 : x ≤ pi) : normalize fl pi (fuel + 1) x = some x := by
  rw [normalize, reduce_down_of_le fl pi fuel x h2, Option.some_bind,
    reduce_up_of_ge fl pi fuel x h1]

/-- A loop whose test holds and whose body leaves `x` as it is never ends. -/
theorem reduce_down_stall (fl : α → α) (pi x : α) (h : x > pi)
    (hx : fl (x - fl (2 * pi)) = x) : ∀ fuel : ℕ, reduce_down fl pi fuel x = none := by
  intro fuel
  induction fuel with
  | zero => rfl
  | succ fuel ih => rw [reduce_down, if_pos h, hx, ih]

theorem reduce_down_le (fl : α → α) (pi : α) : ∀ (fuel : ℕ) (x x' : α),
    reduce_down fl pi fuel x = some x' → x' ≤ pi := by
  intro fuel
  induction fuel with
  | zero => intro x x' h; simp [reduce_down] at h
  | succ fuel ih =>
    intro x x' h
    rw [reduce_down] at h
    split_ifs at h with hx
    · exact ih _ _ h
    · rw [Option.some.injEq] at h
      rw [← h]
      exact not_lt.mp hx

theorem reduce_up_mem (fl : α → α) (pi : α) (hmono : Monotone fl)
    (h2 : fl (2 * pi) = 2 * pi) (h1 : fl pi = pi) : ∀ (fuel : ℕ) (x x' : α), x ≤ pi →
    reduce_up fl pi fuel x = some x' → -pi ≤ x' ∧ x' ≤ pi := by
  intro fuel
  induction fuel with
  | zero => intro x x' _ h; simp [reduce_up] at h
  | succ fuel ih =>
    intro x x' hle h
    rw [reduce_up] at h
    split_ifs at h with hx
    · refine ih _ _ ?_ h
      have : x + fl (2 * pi) ≤ pi := by rw [h2]; linarith
      calc fl (x + fl (2 * pi)) ≤ fl pi := hmono this
        _ = pi := h1
    · rw [Option.some.injEq] at h
      rw [← h]
      exact ⟨not_lt.mp hx, hle⟩

/-- Whatever the rounding, if monotone and exact on `M_PI` and `2 * M_PI`, an angle that
the two loops return lies in `[-M_PI, M_PI]`. -/
theorem normalize_mem (fl : α → α) (pi : α) (hmono : Monotone fl)
    (h2 : fl (2 * pi) = 2 * pi) (h1 : fl pi = pi) (fuel : ℕ) (x x' : α)
    (h : normalize fl pi fuel x = some x') : -pi ≤ x' ∧ x' ≤ pi := by
  rw [normalize] at h
  cases hd : reduce_down fl pi fuel x with
  | none => rw [hd] at h; simp at h
  | some y =>
    rw [hd, Option.some_bind] at h
    exact reduce_up_mem fl pi hmono h2 h1 fuel y x' (reduce_down_le fl pi fuel x y hd) h

theorem reduce_down_exact (pi : α) : ∀ (k : ℕ) (x : α),
    x ≤ pi + (k : α) * (2 * pi) →
    ∃ m : ℕ, m ≤ k ∧ (∀ fuel : ℕ, m < fuel →
        reduce_down id pi fuel x = some (x - (m : α) * (2 * pi))) ∧
      x - (m : α) * (2 * pi) ≤ pi ∧ (-pi ≤ x → -pi ≤ x - (m : α) * (2 * pi)) := by
  intro k
  induction k with
  | zero =>
    intro x hx
    have hle : x ≤ pi := by simpa using hx
    refine ⟨0, le_rfl, ?_, by simpa using hle, fun h => by simpa using h⟩
    intro fuel hf
    obtain ⟨f, rfl⟩ : ∃ f, fuel = f + 1 := ⟨fuel - 1, by omega⟩
    rw [reduce_down_of_le id pi f x hle]
    simp
  | succ k ih =>
    intro x hx
    by_cases hle : x ≤ pi
    · refine ⟨0, Nat.zero_le _, ?_, by simpa using hle, fun h => by simpa using h⟩
      intro fuel hf
      obtain ⟨f, rfl⟩ : ∃ f, fuel = f + 1 := ⟨fuel - 1, by omega⟩
      rw [reduce_down_of_le id pi f x hle]
      simp
    · have hgt : x > pi := not_le.mp hle
      obtain ⟨m, hmk, hrun, hup, hlow⟩ := ih (x - 2 * pi) (by push_cast at hx; linarith)
      refine ⟨m + 1, by omega, ?_, ?_, fun _ => ?_⟩
      · intro fuel hf
        obtain ⟨f, rfl⟩ : ∃ f, fuel = f + 1 := ⟨fuel - 1, by omega⟩
        rw [reduce_down, if_pos hgt, id_eq, id_eq, hrun f (by omega)]
        congr 1
        push_cast
        ring
      · push_cast
        linarith
      · have := hlow (by linarith)
        push_cast
        linarith

theorem reduce_up_exact (pi : α) : ∀ (k : ℕ) (x : α),
    -pi - (k : α) * (2 * pi) ≤ x →
    ∃ n : ℕ, n ≤ k ∧ (∀ fuel : ℕ, n < fuel →
        reduce_up id pi fuel x = some (x + (n : α) * (2 * pi))) ∧
      -pi ≤ x + (n : α) * (2 * pi) ∧ (x ≤ pi → x + (n : α) * (2 * pi) ≤ pi) := by
  intro k
  induction k with
  | zero =>
    intro x hx
    have hge : -pi ≤ x := by simpa using hx
    refine ⟨0, le_rfl, ?_, by simpa using hge, fun h => by simpa using h⟩
    intro fuel hf
    obtain ⟨f, rfl⟩ : ∃ f, fuel = f + 1 := ⟨fuel - 1, by omega⟩
    rw [reduce_up_of_ge id pi f x hge]
    simp
  | succ k ih =>
    intro x hx
    by_cases hge : -pi ≤ x
    · refine ⟨0, Nat.zero_le _, ?_, by simpa using hge, fun h => by simpa using h⟩
      intro fuel hf
      obtain ⟨f, rfl⟩ : ∃ f, fuel = f + 1 := ⟨fuel - 1, by omega⟩
      rw [reduce_up_of_ge id pi f x hge]
      simp
    · have hlt : x < -pi := not_le.mp hge
      obtain ⟨n, hnk, hrun, hlow, hup⟩ := ih (x + 2 * pi) (by push_cast at hx; linarith)
      refine ⟨n + 1, by omega, ?_, ?_, fun _ => ?_⟩
      · intro fuel hf
        obtain ⟨f, rfl⟩ : ∃ f, fuel = f + 1 := ⟨fuel - 1, by omega⟩
        rw [reduce_up, if_pos hlt, id_eq, id_eq, hrun f (by omega)]
        congr 1
        push_cast
        ring
      · push_cast
        linarith
      · have := hup (by linarith)
        push_cast
        linarith

/-- In exact arithmetic the two loops end for every angle, after `m` subtractions and
`n` additions, on an angle of `[-pi, pi]`. -/
theorem normalize_exact [FloorRing α] (pi : α) (hpi : 0 < pi) (x : α) :
    ∃ (m n : ℕ), (∀ fuel : ℕ, m + n < fuel →
        reduce_down id pi fuel x = some (x - (m : α) * (2 * pi)) ∧
        normalize id pi fuel x = some (x - (m : α) * (2 * pi) + (n : α) * (2 * pi))) ∧
      -pi ≤ x - (m : α) * (2 * pi) + (n : α) * (2 * pi) ∧
      x - (m : α) * (2 * pi) + (n : α) * (2 * pi) ≤ pi := by
  have h2 : (0 : α) < 2 * pi := by linarith
  obtain ⟨k, hk⟩ := exists_nat_ge ((x - pi) / (2 * pi))
  have hk' : x ≤ pi + (k : α) * (2 * pi) := by
    have := (div_le_iff₀ h2).mp hk
    linarith
  obtain ⟨m, -, hrun, hup, -⟩ := reduce_down_exact pi k x hk'
  obtain ⟨j, hj⟩ := exists_nat_ge ((-pi - (x - (m : α) * (2 * pi))) / (2 * pi))
  have hj' : -pi - (j : α) * (2 * pi) ≤ x - (m : α) * (2 * pi) := by
    have := (div_le_iff₀ h2).mp hj
    linarith
  obtain ⟨n, -, hrun', hlow', hup'⟩ := reduce_up_exact pi j _ hj'
  refine ⟨m, n, fun fuel hf => ⟨hrun fuel (by omega), ?_⟩, hlow', hup' hup⟩
  rw [normalize, hrun fuel (by omega), Option.some_bind, hrun' fuel (by omega)]

end ReductionLemmas

/-! ## The series as finite sums, in exact arithmetic -/

section SeriesSums

variable {α : Type} [LinearOrderedField α]

theorem list_sum_map_range (f : ℕ → α) (n : ℕ) :
    ((List.range n).map f).sum = ∑ m in Finset.range n, f m := by
  induction n with
  | zero => simp
  | succ n ih => rw [List.range_succ, List.map_append, List.sum_append, ih,
      Finset.sum_range_succ]; simp

theorem sine_sign (m : ℕ) : (if (2 * m + 1) % 4 = 1 then (1 : α) else -1) = (-1) ^ m := by
  rcases Nat.even_or_odd m with ⟨k, rfl⟩ | ⟨k, rfl⟩
  · rw [if_pos (by omega), Even.neg_one_pow ⟨k, rfl⟩]
  · rw [if_neg (by omega), Odd.neg_one_pow ⟨k, rfl⟩]

theorem cosine_sign (m : ℕ) : (if 2 * m % 4 = 0 then (1 : α) else -1) = (-1) ^ m := by
  rcases Nat.even_or_odd m with ⟨k, rfl⟩ | ⟨k, rfl⟩
  · rw [if_pos (by omega), Even.neg_one_pow ⟨k, rfl⟩]
  · rw [if_neg (by omega), Odd.neg_one_pow ⟨k, rfl⟩]

theorem taylor_sine_team_of_normalize (fl : α → α) (pi : α) (fuel : ℕ) (x x' : α)
    (terms : ℤ) (share : Sharing) (h : normalize fl pi fuel x = some x') :
    taylor_sine_team fl pi fuel x terms share
      = some (parallel_reduction fl (sine_term fl x') (share (loop_iterations terms 1))) := by
  rw [taylor_sine_team, h, Option.map_some']

theorem taylor_cosine_team_of_normalize (fl : α → α) (pi : α) (fuel : ℕ) (x x' : α)
    (terms : ℤ) (share : Sharing) (h : normalize fl pi fuel x = some x') :
    taylor_cosine_team fl pi fuel x terms share
      = some (parallel_reduction fl (cosine_term fl x') (share (loop_iterations terms 0))) := by
  rw [taylor_cosine_team, h, Option.map_some']

theorem taylor_sine_team_eq_serial (pi : α) (fuel : ℕ) (x : α) (terms : ℤ)
    (share : Sharing) (h : Fair share (loop_iterations terms 1)) :
    taylor_sine_team id pi fuel x terms share = taylor_sine id pi fuel x terms := by
  simp only [taylor_sine, taylor_sine_team, parallel_reduction_fair _ share _ h,
    parallel_reduction_fair _ one_thread _ (fair_one_thread _)]

theorem taylor_cosine_team_eq_serial (pi : α) (fuel : ℕ) (x : α) (terms : ℤ)
    (share : Sharing) (h : Fair share (loop_iterations terms 0)) :
    taylor_cosine_team id pi fuel x terms share = taylor_cosine id pi fuel x terms := by
  simp only [taylor_cosine, taylor_cosine_team, parallel_reduction_fair _ share _ h,
    parallel_reduction_fair _ one_thread _ (fair_one_thread _)]

theorem taylor_sine_eq_sum (pi : α) (fuel : ℕ) (x x' : α) (terms : ℕ)
    (h : normalize id pi fuel x = some x') :
    taylor_sine id pi fuel x (terms : ℤ)
      = some (∑ m in Finset.range ((terms + 1) / 2),
          (-1) ^ m * x' ^ (2 * m + 1) / ((2 * m + 1).factorial : α)) := by
  rw [taylor_sine, taylor_sine_team_of_normalize id pi fuel x x' _ _ h,
    parallel_reduction_fair _ one_thread _ (fair_one_thread _),
    loop_iterations_spec terms ((terms + 1) / 2) 1 (by omega), List.map_map,
    list_sum_map_range]
  congr 1
  apply Finset.sum_congr rfl
  intro m _
  simp only [Function.comp, sine_term_eq, sine_sign, Nat.add_comm 1 (2 * m)]

theorem taylor_cosine_eq_sum (pi : α) (fuel : ℕ) (x x' : α) (terms : ℕ)
    (h : normalize id pi fuel x = some x') :
    taylor_cosine id pi fuel x (terms : ℤ)
      = some (∑ m in Finset.range (terms / 2 + 1),
          (-1) ^ m * x' ^ (2 * m) / ((2 * m).factorial : α)) := by
  rw [taylor_cosine, taylor_cosine_team_of_normalize id pi fuel x x' _ _ h,
    parallel_reduction_fair _ one_thread _ (fair_one_thread _),
    loop_iterations_spec terms (terms / 2 + 1) 0 (by omega), List.map_map,
    list_sum_map_range]
  congr 1
  apply Finset.sum_congr rfl
  intro m _
  simp only [Function.comp, cosine_term_eq, Nat.zero_add, cosine_sign]

theorem odd_exponents (terms : ℕ) :
    (Finset.Icc 1 terms).filter (fun i => i % 2 = 1)
      = (Finset.range ((terms + 1) / 2)).image (fun m => 2 * m + 1) := by
  ext i
  simp only [Finset.mem_filter, Finset.mem_Icc, Finset.mem_image, Finset.mem_range]
  constructor
  · rintro ⟨⟨h1, h2⟩, h3⟩
    exact ⟨(i - 1) / 2, by omega, by omega⟩
  · rintro ⟨m, hm, rfl⟩
    exact ⟨⟨by omega, by omega⟩, by omega⟩

theorem even_exponents (terms : ℕ) :
    (Finset.Icc 0 terms).filter (fun i => i % 2 = 0)
      = (Finset.range (terms / 2 + 1)).image (fun m => 2 * m) := by
  ext i
  simp only [Finset.mem_filter, Finset.mem_Icc, Finset.mem_image, Finset.mem_range]
  constructor
  · rintro ⟨⟨h1, h2⟩, h3⟩
    exact ⟨i / 2, by omega, by omega⟩
  · rintro ⟨m, hm, rfl⟩
    exact ⟨⟨by omega, by omega⟩, by omega⟩

theorem sine_sum_eq_exponents (y : α) (terms : ℕ) :
    ∑ m in Finset.range ((terms + 1) / 2),
        (-1) ^ m * y ^ (2 * m + 1) / ((2 * m + 1).factorial : α)
      = ∑ i in (Finset.Icc 1 terms).filter (fun i => i % 2 = 1),
          (if i % 4 = 1 then 1 else -1) * y ^ i / (i.factorial : α) := by
  rw [odd_exponents, Finset.sum_image (by intro a _ b _ h; simpa using h)]
  apply Finset.sum_congr rfl
  intro m _
  rw [sine_sign]

theorem cosine_sum_eq_exponents (y : α) (terms : ℕ) :
    ∑ m in Finset.range (terms / 2 + 1), (-1) ^ m * y ^ (2 * m) / ((2 * m).factorial : α)
      = ∑ i in (Finset.Icc 0 terms).filter (fun i => i % 2 = 0),
          (if i % 4 = 0 then 1 else -1) * y ^ i / (i.factorial : α) := by
  rw [even_exponents, Finset.sum_image (by intro a _ b _ h; simpa using h)]
  apply Finset.sum_congr rfl
  intro m _
  rw [cosine_sign]

end SeriesSums

/-! ## The remainder of the sine and cosine series -/

section Remainder

theorem nonneg_of_deriv_nonneg (f f' : ℝ → ℝ) (hf : ∀ x, HasDerivAt f (f' x) x)
    (h0 : f 0 = 0) (hf' : ∀ x, 0 ≤ x → 0 ≤ f' x) (x : ℝ) (hx : 0 ≤ x) : 0 ≤ f x := by
  have hmono : MonotoneOn f (Set.Ici 0) := by
    apply monotoneOn_of_deriv_nonneg (convex_Ici 0)
    · exact (continuous_iff_continuousAt.mpr fun y => (hf y).continuousAt).continuousOn
    · exact fun y _ => (hf y).differentiableAt.differentiableWithinAt
    · intro y hy
      rw [(hf y).deriv]
      rw [interior_Ici] at hy
      exact hf' y (le_of_lt hy)
  have h := hmono (Set.mem_Ici.mpr le_rfl) (Set.mem_Ici.mpr hx) hx
  rwa [h0] at h

theorem hasDerivAt_sine_sum (k : ℕ) (x : ℝ) :
    HasDerivAt (fun y : ℝ => ∑ m in Finset.range k,
        (-1) ^ m * y ^ (2 * m + 1) / ((2 * m + 1).factorial : ℝ))
      (∑ m in Finset.range k, (-1) ^ m * x ^ (2 * m) / ((2 * m).factorial : ℝ)) x := by
  apply HasDerivAt.sum
  intro m _
  have h := ((hasDerivAt_pow (2 * m + 1) x).const_mul ((-1 : ℝ) ^ m)).div_const
    ((2 * m + 1).factorial : ℝ)
  convert h using 1
  rw [Nat.factorial_succ]
  have hf : ((2 * m).factorial : ℝ) ≠ 0 := by positivity
  have hm : ((2 * m + 1 : ℕ) : ℝ) ≠ 0 := by positivity
  push_cast
  field_simp
  ring

theorem hasDerivAt_cosine_sum (k : ℕ) (x : ℝ) :
    HasDerivAt (fun y : ℝ => ∑ m in Finset.range (k + 1),
        (-1) ^ m * y ^ (2 * m) / ((2 * m).factorial : ℝ))
      (-∑ m in Finset.range k, (-1) ^ m * x ^ (2 * m + 1) / ((2 * m + 1).factorial : ℝ)) x := by
  have h1 : (fun y : ℝ => ∑ m in Finset.range (k + 1),
        (-1) ^ m * y ^ (2 * m) / ((2 * m).factorial : ℝ))
      = fun y : ℝ => (∑ m in Finset.range k,
        (-1) ^ (m + 1) * y ^ (2 * (m + 1)) / ((2 * (m + 1)).factorial : ℝ)) + 1 := by
    funext y
    rw [Finset.sum_range_succ']
    simp
  rw [h1, ← Finset.sum_neg_distrib]
  apply HasDerivAt.add_const
  apply HasDerivAt.sum
  intro m _
  have h := ((hasDerivAt_pow (2 * (m + 1)) x).const_mul ((-1 : ℝ) ^ (m + 1))).div_const
    ((2 * (m + 1)).factorial : ℝ)
  convert h using 1
  have e1 : 2 * (m + 1) - 1 = 2 * m + 1 := by omega
  have e2 : (2 * (m + 1)).factorial = (2 * (m + 1)) * (2 * m + 1).factorial := by
    rw [show 2 * (m + 1) = (2 * m + 1) + 1 by ring, Nat.factorial_succ]
  have hf : ((2 * m + 1).factorial : ℝ) ≠ 0 := by positivity
  rw [e1, e2]
  push_cast
  field_simp
  ring

theorem sine_sum_zero (k : ℕ) :
    ∑ m in Finset.range k, (-1 : ℝ) ^ m * (0 : ℝ) ^ (2 * m + 1) / ((2 * m + 1).factorial : ℝ) = 0 := by
  apply Finset.sum_eq_zero
  intro m _
  simp

theorem cosine_sum_zero (k : ℕ) :
    ∑ m in Finset.range (k + 1), (-1 : ℝ) ^ m * (0 : ℝ) ^ (2 * m) / ((2 * m).factorial : ℝ) = 1 := by
  rw [Finset.sum_range_succ']
  simp

theorem sine_step (k : ℕ)
    (hB : ∀ x : ℝ, 0 ≤ x → 0 ≤ (-1) ^ k * ((∑ m in Finset.range (k + 1),
        (-1) ^ m * x ^ (2 * m) / ((2 * m).factorial : ℝ)) - Real.cos x))
    (x : ℝ) (hx : 0 ≤ x) :
    0 ≤ (-1) ^ (k + 1) * (Real.sin x - ∑ m in Finset.range (k + 1),
        (-1) ^ m * x ^ (2 * m + 1) / ((2 * m + 1).factorial : ℝ)) := by
  refine nonneg_of_deriv_nonneg
    (fun y => (-1) ^ (k + 1) * (Real.sin y - ∑ m in Finset.range (k + 1),
        (-1) ^ m * y ^ (2 * m + 1) / ((2 * m + 1).factorial : ℝ)))
    (fun y => (-1) ^ (k + 1) * (Real.cos y - ∑ m in Finset.range (k + 1),
        (-1) ^ m * y ^ (2 * m) / ((2 * m).factorial : ℝ))) ?_ ?_ ?_ x hx
  · intro y
    exact ((Real.hasDerivAt_sin y).sub (hasDerivAt_sine_sum (k + 1) y)).const_mul _
  · simp only [Real.sin_zero, sine_sum_zero, sub_self, mul_zero]
  · intro y hy
    have h := hB y hy
    rw [pow_succ]
    linarith

theorem cosine_step (k : ℕ)
    (hA : ∀ x : ℝ, 0 ≤ x → 0 ≤ (-1) ^ (k + 1) * (Real.sin x - ∑ m in Finset.range (k + 1),
        (-1) ^ m * x ^ (2 * m + 1) / ((2 * m + 1).factorial : ℝ)))
    (x : ℝ) (hx : 0 ≤ x) :
    0 ≤ (-1) ^ (k + 1) * ((∑ m in Finset.range (k + 1 + 1),
        (-1) ^ m * x ^ (2 * m) / ((2 * m).factorial : ℝ)) - Real.cos x) := by
  refine nonneg_of_deriv_nonneg
    (fun y => (-1) ^ (k + 1) * ((∑ m in Finset.range (k + 1 + 1),
        (-1) ^ m * y ^ (2 * m) / ((2 * m).factorial : ℝ)) - Real.cos y))
    (fun y => (-1) ^ (k + 1) * ((-∑ m in Finset.range (k + 1),
        (-1) ^ m * y ^ (2 * m + 1) / ((2 * m + 1).factorial : ℝ)) - (-Real.sin y)))
    ?_ ?_ ?_ x hx
  · intro y
    exact ((hasDerivAt_cosine_sum (k + 1) y).sub (Real.hasDerivAt_cos y)).const_mul _
  · simp only [Real.cos_zero, cosine_sum_zero, sub_self, mul_zero]
  · intro y hy
    have h := hA y hy
    linarith

theorem alternating_bounds (k : ℕ) :
    (∀ x : ℝ, 0 ≤ x → 0 ≤ (-1) ^ k * ((∑ m in Finset.range (k + 1),
        (-1) ^ m * x ^ (2 * m) / ((2 * m).factorial : ℝ)) - Real.cos x)) ∧
    ∀ x : ℝ, 0 ≤ x → 0 ≤ (-1) ^ (k + 1) * (Real.sin x - ∑ m in Finset.range (k + 1),
        (-1) ^ m * x ^ (2 * m + 1) / ((2 * m + 1).factorial : ℝ)) := by
  induction k with
  | zero =>
    have hB : ∀ x : ℝ, 0 ≤ x → 0 ≤ (-1) ^ 0 * ((∑ m in Finset.range (0 + 1),
        (-1) ^ m * x ^ (2 * m) / ((2 * m).factorial : ℝ)) - Real.cos x) := by
      intro x _
      have := Real.cos_le_one x
      simp
      linarith
    exact ⟨hB, sine_step 0 hB⟩
  | succ k ih =>
    have hB := cosine_step k ih.2
    exact ⟨hB, sine_step (k + 1) hB⟩

/-- For `x ≥ 0` the sine series cut after `k + 1` terms errs by at most its next term. -/
theorem sine_remainder_nonneg (k : ℕ) (x : ℝ) (hx : 0 ≤ x) :
    |Real.sin x - ∑ m in Finset.range (k + 1),
        (-1) ^ m * x ^ (2 * m + 1) / ((2 * m + 1).factorial : ℝ)|
      ≤ x ^ (2 * (k + 1) + 1) / ((2 * (k + 1) + 1).factorial : ℝ) := by
  have h1 := (alternating_bounds k).2 x hx
  have h2 := (alternating_bounds (k + 1)).2 x hx
  rw [Finset.sum_range_succ] at h2
  set S := ∑ m in Finset.range (k + 1),
        (-1 : ℝ) ^ m * x ^ (2 * m + 1) / ((2 * m + 1).factorial : ℝ) with hS
  set t := x ^ (2 * (k + 1) + 1) / ((2 * (k + 1) + 1).factorial : ℝ) with ht
  have h3 : (-1 : ℝ) ^ (k + 1) * ((-1) ^ (k + 1) * x ^ (2 * (k + 1) + 1)
      / ((2 * (k + 1) + 1).factorial : ℝ)) = t := by
    rw [mul_div_assoc, ← mul_assoc, ← pow_add, Even.neg_one_pow ⟨k + 1, rfl⟩, one_mul]
  have h4 : (-1 : ℝ) ^ (k + 1 + 1) = -(-1) ^ (k + 1) := by rw [pow_succ]; ring
  rw [h4] at h2
  have h5 : 0 ≤ -((-1 : ℝ) ^ (k + 1) * (Real.sin x - S)) + t := by
    rw [← h3]; linarith
  rcases neg_one_pow_eq_or ℝ (k + 1) with e | e <;> rw [e] at h1 h5 <;>
    rw [abs_le] <;> constructor <;> linarith

/-- For `x ≥ 0` the cosine series cut after `k + 1` terms errs by at most its next term. -/
theorem cosine_remainder_nonneg (k : ℕ) (x : ℝ) (hx : 0 ≤ x) :
    |Real.cos x - ∑ m in Finset.range (k + 1),
        (-1) ^ m * x ^ (2 * m) / ((2 * m).factorial : ℝ)|
      ≤ x ^ (2 * (k + 1)) / ((2 * (k + 1)).factorial : ℝ) := by
  have h1 := (alternating_bounds k).1 x hx
  have h2 := (alternating_bounds (k + 1)).1 x hx
  rw [Finset.sum_range_succ] at h2
  set S := ∑ m in Finset.range (k + 1),
        (-1 : ℝ) ^ m * x ^ (2 * m) / ((2 * m).factorial : ℝ) with hS
  set t := x ^ (2 * (k + 1)) / ((2 * (k + 1)).factorial : ℝ) with ht
  have h3 : (-1 : ℝ) ^ (k + 1) * ((-1) ^ (k + 1) * x ^ (2 * (k + 1))
      / ((2 * (k + 1)).factorial : ℝ)) = t := by
    rw [mul_div_assoc, ← mul_assoc, ← pow_add, Even.neg_one_pow ⟨k + 1, rfl⟩, one_mul]
  have h4 : (-1 : ℝ) ^ (k + 1) = -(-1) ^ k := by rw [pow_succ]; ring
  have h5 : 0 ≤ -((-1 : ℝ) ^ k * (S - Real.cos x)) + t := by
    rw [← h3]
    have h6 : (-1 : ℝ) ^ (k + 1) * (S + (-1) ^ (k + 1) * x ^ (2 * (k + 1))
      / ((2 * (k + 1)).factorial : ℝ) - Real.cos x)
      = -((-1 : ℝ) ^ k * (S - Real.cos x)) + (-1 : ℝ) ^ (k + 1) * ((-1) ^ (k + 1) * x ^ (2 * (k + 1))
      / ((2 * (k + 1)).factorial : ℝ)) := by rw [h4]; ring
    rw [← h6]; exact h2
  rcases neg_one_pow_eq_or ℝ k with e | e <;> rw [e] at h1 h5 <;>
    rw [abs_le] <;> constructor <;> linarith

/-- The sine series cut after `k + 1` terms errs by at most the size of its next term. -/
theorem sine_remainder (k : ℕ) (x : ℝ) :
    |Real.sin x - ∑ m in Finset.range (k + 1),
        (-1) ^ m * x ^ (2 * m + 1) / ((2 * m + 1).factorial : ℝ)|
      ≤ |x| ^ (2 * (k + 1) + 1) / ((2 * (k + 1) + 1).factorial : ℝ) := by
  rcases le_total 0 x with hx | hx
  · rw [abs_of_nonneg hx]
    exact sine_remainder_nonneg k x hx
  · have h := sine_remainder_nonneg k (-x) (by linarith)
    have hs : ∑ m in Finset.range (k + 1),
        (-1 : ℝ) ^ m * (-x) ^ (2 * m + 1) / ((2 * m + 1).factorial : ℝ)
        = -∑ m in Finset.range (k + 1),
        (-1 : ℝ) ^ m * x ^ (2 * m + 1) / ((2 * m + 1).factorial : ℝ) := by
      rw [← Finset.sum_neg_distrib]
      apply Finset.sum_congr rfl
      intro m _
      rw [(odd_two_mul_add_one m).neg_pow x]
      ring
    rw [hs, Real.sin_neg, ← neg_sub', abs_neg] at h
    rw [abs_of_nonpos hx]
    exact h

/-- The cosine series cut after `k + 1` terms errs by at most the size of its next term. -/
theorem cosine_remainder (k : ℕ) (x : ℝ) :
    |Real.cos x - ∑ m in Finset.range (k + 1),
        (-1) ^ m * x ^ (2 * m) / ((2 * m).factorial : ℝ)|
      ≤ |x| ^ (2 * (k + 1)) / ((2 * (k + 1)).factorial : ℝ) := by
  rcases le_total 0 x with hx | hx
  · rw [abs_of_nonneg hx]
    exact cosine_remainder_nonneg k x hx
  · have h := cosine_remainder_nonneg k (-x) (by linarith)
    have hs : ∑ m in Finset.range (k + 1),
        (-1 : ℝ) ^ m * (-x) ^ (2 * m) / ((2 * m).factorial : ℝ)
        = ∑ m in Finset.range (k + 1),
        (-1 : ℝ) ^ m * x ^ (2 * m) / ((2 * m).factorial : ℝ) := by
      apply Finset.sum_congr rfl
      intro m _
      rw [(even_two_mul m).neg_pow x]
    rw [hs, Real.cos_neg] at h
    rw [abs_of_nonpos hx]
    exact h

/-- The terms `r ^ n / n!` decrease from the index `m` on when `r ≤ m + 1`. -/
theorem pow_div_factorial_le (r : ℝ) (hr : 0 ≤ r) (m n : ℕ) (hmn : m ≤ n)
    (hrm : r ≤ (m : ℝ) + 1) :
    r ^ n / (n.factorial : ℝ) ≤ r ^ m / (m.factorial : ℝ) := by
  induction n, hmn using Nat.le_induction with
  | base => exact le_rfl
  | succ n hn ih =>
    refine le_trans ?_ ih
    have hn1 : r ≤ (n : ℝ) + 1 := by
      have : (m : ℝ) ≤ (n : ℝ) := by exact_mod_cast hn
      linarith
    have hf : (0 : ℝ) < (n.factorial : ℝ) := by positivity
    rw [Nat.factorial_succ, pow_succ]
    push_cast
    rw [div_le_div_iff₀ (by positivity) hf]
    have hp : 0 ≤ r ^ n := pow_nonneg hr n
    have h1 : r ^ n * r ≤ r ^ n * ((n : ℝ) + 1) := mul_le_mul_of_nonneg_left hn1 hp
    nlinarith [mul_le_mul_of_nonneg_right h1 hf.le]

end Remainder

/-! ## The Maclaurin coefficients of sine and cosine -/

section Maclaurin

theorem iteratedDeriv_sin_cos (k : ℕ) :
    (iteratedDeriv (2 * k) Real.sin = fun x => (-1) ^ k * Real.sin x) ∧
    (iteratedDeriv (2 * k + 1) Real.sin = fun x => (-1) ^ k * Real.cos x) ∧
    (iteratedDeriv (2 * k) Real.cos = fun x => (-1) ^ k * Real.cos x) ∧
    (iteratedDeriv (2 * k + 1) Real.cos = fun x => (-1) ^ k * (-Real.sin x)) := by
  induction k with
  | zero =>
    simp only [Nat.mul_zero, iteratedDeriv_zero, pow_zero, one_mul, Nat.zero_add,
      iteratedDeriv_one, Real.deriv_sin, Real.deriv_cos']
    exact ⟨trivial, trivial, trivial, trivial⟩
  | succ k ih =>
    obtain ⟨-, h2, -, h4⟩ := ih
    have e1 : 2 * (k + 1) = (2 * k + 1) + 1 := by ring
    have s1 : iteratedDeriv (2 * (k + 1)) Real.sin = fun x => (-1) ^ (k + 1) * Real.sin x := by
      rw [e1, iteratedDeriv_succ, h2]
      funext x
      rw [deriv_const_mul _ Real.differentiableAt_cos, Real.deriv_cos, pow_succ]
      ring
    have c1 : iteratedDeriv (2 * (k + 1)) Real.cos = fun x => (-1) ^ (k + 1) * Real.cos x := by
      rw [e1, iteratedDeriv_succ, h4]
      funext x
      rw [deriv_const_mul _ Real.differentiableAt_sin.neg, deriv.neg, Real.deriv_sin, pow_succ]
      ring
    refine ⟨s1, ?_, c1, ?_⟩
    · rw [iteratedDeriv_succ, s1]
      funext x
      rw [deriv_const_mul _ Real.differentiableAt_sin, Real.deriv_sin]
    · rw [iteratedDeriv_succ, c1]
      funext x
      rw [deriv_const_mul _ Real.differentiableAt_cos, Real.deriv_cos]

theorem maclaurin_sin_coeff (i : ℕ) :
    iteratedDeriv i Real.sin 0 = if i % 2 = 1 then (if i % 4 = 1 then 1 else -1) else 0 := by
  rcases Nat.even_or_odd' i with ⟨k, rfl | rfl⟩
  · rw [(iteratedDeriv_sin_cos k).1, if_neg (by omega)]
    simp
  · rw [(iteratedDeriv_sin_cos k).2.1, if_pos (by omega)]
    simp only [Real.cos_zero, mul_one]
    rcases Nat.even_or_odd k with hk | hk
    · rw [hk.neg_one_pow, if_pos]
      obtain ⟨j, rfl⟩ := hk
      omega
    · rw [hk.neg_one_pow, if_neg]
      obtain ⟨j, rfl⟩ := hk
      omega

theorem maclaurin_cos_coeff (i : ℕ) :
    iteratedDeriv i Real.cos 0 = if i % 2 = 0 then (if i % 4 = 0 then 1 else -1) else 0 := by
  rcases Nat.even_or_odd' i with ⟨k, rfl | rfl⟩
  · rw [(iteratedDeriv_sin_cos k).2.2.1, if_pos (by omega)]
    simp only [Real.cos_zero, mul_one]
    rcases Nat.even_or_odd k with hk | hk
    · rw [hk.neg_one_pow, if_pos]
      obtain ⟨j, rfl⟩ := hk
      omega
    · rw [hk.neg_one_pow, if_neg]
      obtain ⟨j, rfl⟩ := hk
      omega
  · rw [(iteratedDeriv_sin_cos k).2.2.2, if_neg (by omega)]
    simp

end Maclaurin

/-! ## The series as Maclaurin polynomials -/

section MaclaurinSums

theorem maclaurin_sin_sum (y : ℝ) (terms : ℕ) :
    ∑ i in Finset.range (terms + 1), iteratedDeriv i Real.sin 0 / (i.factorial : ℝ) * y ^ i
      = ∑ i in (Finset.Icc 1 terms).filter (fun i => i % 2 = 1),
          (if i % 4 = 1 then 1 else -1) * y ^ i / (i.factorial : ℝ) := by
  have hs : (Finset.Icc 1 terms).filter (fun i => i % 2 = 1)
      = (Finset.range (terms + 1)).filter (fun i => i % 2 = 1) := by
    ext i
    simp only [Finset.mem_filter, Finset.mem_Icc, Finset.mem_range]
    omega
  rw [hs, Finset.sum_filter]
  apply Finset.sum_congr rfl
  intro i _
  rw [maclaurin_sin_coeff]
  split_ifs <;> ring

theorem maclaurin_cos_sum (y : ℝ) (terms : ℕ) :
    ∑ i in Finset.range (terms + 1), iteratedDeriv i Real.cos 0 / (i.factorial : ℝ) * y ^ i
      = ∑ i in (Finset.Icc 0 terms).filter (fun i => i % 2 = 0),
          (if i % 4 = 0 then 1 else -1) * y ^ i / (i.factorial : ℝ) := by
  have hs : (Finset.Icc 0 terms).filter (fun i => i % 2 = 0)
      = (Finset.range (terms + 1)).filter (fun i => i % 2 = 0) := by
    ext i
    simp only [Finset.mem_filter, Finset.mem_Icc, Finset.mem_range]
    omega
  rw [hs, Finset.sum_filter]
  apply Finset.sum_congr rfl
  intro i _
  rw [maclaurin_cos_coeff]
  split_ifs <;> ring

end MaclaurinSums

/-! ## Accuracy of the series on `[-π, π]` -/

section Accuracy

theorem taylor_sine_error (θ : ℝ) (h1 : -Real.pi ≤ θ) (h2 : θ ≤ Real.pi) (fuel terms n : ℕ)
    (hn : 3 ≤ n) (ht : n ≤ 2 * ((terms + 1) / 2) + 1) (hpos : 1 ≤ (terms + 1) / 2) :
    ∃ s : ℝ, taylor_sine id Real.pi (fuel + 1) θ (terms : ℤ) = some s ∧
      |s - Real.sin θ| ≤ |θ| ^ n / (n.factorial : ℝ) := by
  refine ⟨_, taylor_sine_eq_sum Real.pi (fuel + 1) θ θ terms
    (normalize_of_mem id Real.pi fuel θ h1 h2), ?_⟩
  rw [abs_sub_comm]
  obtain ⟨k, hk⟩ : ∃ k, (terms + 1) / 2 = k + 1 := ⟨(terms + 1) / 2 - 1, by omega⟩
  rw [hk] at ht ⊢
  have habs : |θ| ≤ Real.pi := abs_le.mpr ⟨h1, h2⟩
  have hn' : |θ| ≤ (n : ℝ) + 1 := by
    have : (3 : ℝ) ≤ (n : ℝ) := by exact_mod_cast hn
    linarith [Real.pi_le_four]
  calc |Real.sin θ - ∑ m in Finset.range (k + 1),
          (-1) ^ m * θ ^ (2 * m + 1) / ((2 * m + 1).factorial : ℝ)|
      ≤ |θ| ^ (2 * (k + 1) + 1) / ((2 * (k + 1) + 1).factorial : ℝ) := sine_remainder k θ
    _ ≤ |θ| ^ n / (n.factorial : ℝ) :=
        pow_div_factorial_le |θ| (abs_nonneg θ) n _ ht hn'

theorem taylor_cosine_error (θ : ℝ) (h1 : -Real.pi ≤ θ) (h2 : θ ≤ Real.pi)
    (fuel terms n : ℕ) (hn : 3 ≤ n) (ht : n ≤ 2 * (terms / 2 + 1)) :
    ∃ c : ℝ, taylor_cosine id Real.pi (fuel + 1) θ (terms : ℤ) = some c ∧
      |c - Real.cos θ| ≤ |θ| ^ n / (n.factorial : ℝ) := by
  refine ⟨_, taylor_cosine_eq_sum Real.pi (fuel + 1) θ θ terms
    (normalize_of_mem id Real.pi fuel θ h1 h2), ?_⟩
  rw [abs_sub_comm]
  have habs : |θ| ≤ Real.pi := abs_le.mpr ⟨h1, h2⟩
  have hn' : |θ| ≤ (n : ℝ) + 1 := by
    have : (3 : ℝ) ≤ (n : ℝ) := by exact_mod_cast hn
    linarith [Real.pi_le_four]
  calc |Real.cos θ - ∑ m in Finset.range (terms / 2 + 1),
          (-1) ^ m * θ ^ (2 * m) / ((2 * m).factorial : ℝ)|
      ≤ |θ| ^ (2 * (terms / 2 + 1)) / ((2 * (terms / 2 + 1)).factorial : ℝ) :=
        cosine_remainder (terms / 2) θ
    _ ≤ |θ| ^ n / (n.factorial : ℝ) :=
        pow_div_factorial_le |θ| (abs_nonneg θ) n _ ht hn'

theorem abs_pow_div_factorial_le (θ b : ℝ) (h : |θ| ≤ b) (n : ℕ) :
    |θ| ^ n / (n.factorial : ℝ) ≤ b ^ n / (n.factorial : ℝ) := by
  apply div_le_div_of_nonneg_right _ (by positivity)
  exact pow_le_pow_left₀ (abs_nonneg θ) h n

theorem pi_pow_bound (n : ℕ) : Real.pi ^ n ≤ (315 / 100 : ℝ) ^ n := by
  have h : Real.pi ≤ 315 / 100 := by
    have := Real.pi_lt_d2
    norm_num at this ⊢
    linarith
  exact pow_le_pow_left₀ Real.pi_pos.le h n

theorem pi_pow_11 : Real.pi ^ 11 / ((11 : ℕ).factorial : ℝ) < 8 / 1000 := by
  have h := pi_pow_bound 11
  have hf : ((11 : ℕ).factorial : ℝ) = 39916800 := by norm_num [Nat.factorial]
  rw [hf, div_lt_iff₀ (by norm_num)]
  refine lt_of_le_of_lt h ?_
  norm_num

theorem pi_pow_12 : Real.pi ^ 12 / ((12 : ℕ).factorial : ℝ) < 2 / 1000 := by
  have h := pi_pow_bound 12
  have hf : ((12 : ℕ).factorial : ℝ) = 479001600 := by norm_num [Nat.factorial]
  rw [hf, div_lt_iff₀ (by norm_num)]
  refine lt_of_le_of_lt h ?_
  norm_num

theorem pi_pow_13 : Real.pi ^ 13 / ((13 : ℕ).factorial : ℝ) < 1 / 1000 := by
  have h := pi_pow_bound 13
  have hf : ((13 : ℕ).factorial : ℝ) = 6227020800 := by norm_num [Nat.factorial]
  rw [hf, div_lt_iff₀ (by norm_num)]
  refine lt_of_le_of_lt h ?_
  norm_num

theorem pi_pow_14 : Real.pi ^ 14 / ((14 : ℕ).factorial : ℝ) < 1 / 1000 := by
  have h := pi_pow_bound 14
  have hf : ((14 : ℕ).factorial : ℝ) = 87178291200 := by norm_num [Nat.factorial]
  rw [hf, div_lt_iff₀ (by norm_num)]
  refine lt_of_le_of_lt h ?_
  norm_num

theorem pi_pow_lower (n : ℕ) : (3141592 / 1000000 : ℝ) ^ n ≤ Real.pi ^ n := by
  have h : (3141592 / 1000000 : ℝ) ≤ Real.pi := by
    have := Real.pi_gt_d6
    norm_num at this ⊢
    linarith
  exact pow_le_pow_left₀ (by norm_num) h n

theorem pi_pow_upper (n : ℕ) : Real.pi ^ n ≤ (3141593 / 1000000 : ℝ) ^ n := by
  have h : Real.pi ≤ 3141593 / 1000000 := by
    have := Real.pi_lt_d6
    norm_num at this ⊢
    linarith
  exact pow_le_pow_left₀ Real.pi_pos.le h n

end Accuracy

/-! ## Machine arithmetic -/

section MachineArithmetic

theorem wrap_int_of_fits (v : ℤ) (h : fits_int v) : wrap_int v = v := by
  unfold fits_int at h
  unfold wrap_int
  omega

theorem fits_int_wrap_int (v : ℤ) : fits_int (wrap_int v) := by
  unfold fits_int wrap_int
  omega

variable {α : Type} [LinearOrderedField α] [FloorRing α]

theorem round_half_even_eq (q : α) (n : ℤ) (h : |q - (n : α)| < 1 / 2) :
    round_half_even q = n := by
  rw [abs_lt] at h
  unfold round_half_even
  by_cases hq : (n : α) ≤ q
  · have hfl : ⌊q⌋ = n := Int.floor_eq_iff.mpr ⟨hq, by linarith [h.2]⟩
    rw [hfl, if_pos (by linarith [h.2])]
  · have hq' : q < (n : α) := not_le.mp hq
    have hfl : ⌊q⌋ = n - 1 := by
      rw [Int.floor_eq_iff]
      push_cast
      constructor <;> linarith [h.1]
    rw [hfl]
    push_cast
    rw [if_neg (by linarith [h.1]), if_pos (by linarith [h.1])]
    ring

/-- The rounding of a value `v` with `2 ^ e ≤ |v| < 2 ^ (e + 1)` that is less than half a
unit in the last place away from `n * 2 ^ (e - 52)`. -/
theorem round_double_eq (v : α) (e n : ℤ) (h1 : (2 : α) ^ e ≤ |v|)
    (h2 : |v| < (2 : α) ^ (e + 1)) (h3 : |v / 2 ^ (e - 52) - (n : α)| < 1 / 2) :
    round_double v = (n : α) * 2 ^ (e - 52) := by
  have hpos : (0 : α) < |v| := lt_of_lt_of_le (zpow_pos (by norm_num) e) h1
  have hv : v ≠ 0 := abs_pos.mp hpos
  have hlog : Int.log 2 |v| = e := by
    apply le_antisymm
    · have := (Int.lt_zpow_iff_log_lt (b := 2) (by norm_num) hpos).mp (by exact_mod_cast h2)
      omega
    · exact (Int.zpow_le_iff_le_log (b := 2) (by norm_num) hpos).mp (by exact_mod_cast h1)
  rw [round_double, if_neg hv, hlog, round_half_even_eq _ n h3]

theorem static_cast_int_spec (v : α) :
    |((static_cast_int v : ℤ) : α)| ≤ |v| ∧ |v - ((static_cast_int v : ℤ) : α)| < 1 ∧
      (0 ≤ v → 0 ≤ static_cast_int v) ∧ (v ≤ 0 → static_cast_int v ≤ 0) := by
  unfold static_cast_int
  by_cases h : 0 ≤ v
  · rw [if_pos h]
    have h1 : ((⌊v⌋ : ℤ) : α) ≤ v := Int.floor_le v
    have h2 : v < ((⌊v⌋ : ℤ) : α) + 1 := Int.lt_floor_add_one v
    have h3 : 0 ≤ ⌊v⌋ := Int.floor_nonneg.mpr h
    have h4 : (0 : α) ≤ ((⌊v⌋ : ℤ) : α) := by exact_mod_cast h3
    refine ⟨?_, ?_, fun _ => h3, fun hv => ?_⟩
    · rw [abs_of_nonneg h4, abs_of_nonneg h]; exact h1
    · rw [abs_lt]; constructor <;> linarith
    · have hv0 : v = 0 := le_antisymm hv h
      rw [hv0]; simp
  · rw [if_neg h]
    have hv : v < 0 := not_le.mp h
    have h1 : v ≤ ((⌈v⌉ : ℤ) : α) := Int.le_ceil v
    have h2 : ((⌈v⌉ : ℤ) : α) < v + 1 := Int.ceil_lt_add_one v
    have h3 : ⌈v⌉ ≤ 0 := Int.ceil_le.mpr (by simpa using hv.le)
    have h4 : ((⌈v⌉ : ℤ) : α) ≤ 0 := by exact_mod_cast h3
    refine ⟨?_, ?_, fun h0 => absurd h0 h, fun _ => h3⟩
    · rw [abs_of_nonpos h4, abs_of_nonpos hv.le]; linarith
    · rw [abs_lt]; constructor <;> linarith

theorem static_cast_int_eq (v : α) (n : ℤ) (h0 : 0 ≤ v) (h1 : (n : α) ≤ v)
    (h2 : v < (n : α) + 1) : static_cast_int v = n := by
  rw [static_cast_int, if_pos h0, Int.floor_eq_iff]
  exact ⟨h1, h2⟩

/-- A truncated value of magnitude at most `b` fits in an `int` with a centre when
`b + |center|` does. -/
theorem fits_int_of_abs_le (v : α) (b center : ℤ) (h : |v| ≤ (b : α))
    (hb : b + |center| ≤ 2147483647) :
    fits_int (static_cast_int v) ∧ fits_int (static_cast_int v + center) := by
  have h1 : |((static_cast_int v : ℤ) : α)| ≤ (b : α) := le_trans (static_cast_int_spec v).1 h
  have h2 : |static_cast_int v| ≤ b := by exact_mod_cast h1
  have h3 := abs_le.mp h2
  have h4 := abs_le.mp (le_refl |center|)
  have h5 := abs_nonneg center
  unfold fits_int
  omega

end MachineArithmetic

/-! ## Rounding to binary64 -/

section RoundingLemmas

theorem zpow_ulp_mul (α : Type) [LinearOrderedField α] (e : ℤ) :
    (4503599627370496 : α) * (2 : α) ^ (e - 52) = 2 ^ e ∧
      (9007199254740992 : α) * (2 : α) ^ (e - 52) = 2 ^ (e + 1) := by
  have h2 : (2 : α) ≠ 0 := by norm_num
  constructor
  · rw [zpow_sub₀ h2]
    field_simp
    ring
  · rw [zpow_sub₀ h2, zpow_add₀ h2]
    field_simp
    ring

variable {α : Type} [LinearOrderedField α] [FloorRing α]

theorem round_half_even_bounds (q : α) :
    ⌊q⌋ ≤ round_half_even q ∧ round_half_even q ≤ ⌊q⌋ + 1 := by
  unfold round_half_even
  split_ifs <;> omega

theorem round_half_even_intCast (n : ℤ) : round_half_even (n : α) = n := by
  apply round_half_even_eq
  simp

theorem round_half_even_mono (q q' : α) (h : q ≤ q') :
    round_half_even q ≤ round_half_even q' := by
  rcases (Int.floor_mono h).lt_or_eq with hlt | heq
  · have h1 := (round_half_even_bounds q).2
    have h2 := (round_half_even_bounds q').1
    omega
  · unfold round_half_even
    rw [← heq]
    split_ifs <;> first | omega | linarith

/-- The distance of a value from its rounding to an integer is at most one half. -/
theorem round_half_even_error (q : α) : |(round_half_even q : α) - q| ≤ 1 / 2 := by
  have h1 : ((⌊q⌋ : ℤ) : α) ≤ q := Int.floor_le q
  have h2 : q < ((⌊q⌋ : ℤ) : α) + 1 := Int.lt_floor_add_one q
  unfold round_half_even
  rw [abs_le]
  split_ifs <;> push_cast <;> constructor <;> linarith

theorem zpow_log_bounds (v : α) (hv : v ≠ 0) :
    (2 : α) ^ Int.log 2 |v| ≤ |v| ∧ |v| < (2 : α) ^ (Int.log 2 |v| + 1) := by
  have hpos : (0 : α) < |v| := abs_pos.mpr hv
  constructor
  · simpa using Int.zpow_log_le_self (b := 2) (by norm_num) hpos
  · simpa using Int.lt_zpow_succ_log_self (b := 2) (by norm_num) |v|

/-- The rounding of a positive value stays in the closed binade of the value. -/
theorem round_double_pos_bounds (v : α) (hv : 0 < v) :
    (2 : α) ^ Int.log 2 |v| ≤ round_double v ∧
      round_double v ≤ (2 : α) ^ (Int.log 2 |v| + 1) := by
  obtain ⟨h1, h2⟩ := zpow_log_bounds v hv.ne'
  have h1' : (2 : α) ^ Int.log 2 |v| ≤ v := le_of_le_of_eq h1 (abs_of_pos hv)
  have h2' : v < (2 : α) ^ (Int.log 2 |v| + 1) := lt_of_eq_of_lt (abs_of_pos hv).symm h2
  have hu : (0 : α) < (2 : α) ^ (Int.log 2 |v| - 52) := zpow_pos (by norm_num) _
  obtain ⟨e1, e2⟩ := zpow_ulp_mul α (Int.log 2 |v|)
  rw [round_double, if_neg hv.ne']
  constructor
  · have hq : ((4503599627370496 : ℤ) : α) ≤ v / 2 ^ (Int.log 2 |v| - 52) := by
      rw [le_div_iff₀ hu]
      push_cast
      rw [e1]; exact h1'
    have hr := round_half_even_mono _ _ hq
    rw [round_half_even_intCast] at hr
    have hr' : (4503599627370496 : α) ≤
        (round_half_even (v / 2 ^ (Int.log 2 |v| - 52)) : α) := by
      exact_mod_cast hr
    calc (2 : α) ^ Int.log 2 |v| = 4503599627370496 * 2 ^ (Int.log 2 |v| - 52) := e1.symm
      _ ≤ _ := mul_le_mul_of_nonneg_right hr' hu.le
  · have hq : v / 2 ^ (Int.log 2 |v| - 52) ≤ ((9007199254740992 : ℤ) : α) := by
      rw [div_le_iff₀ hu]
      push_cast
      rw [e2]; exact h2'.le
    have hr := round_half_even_mono _ _ hq
    rw [round_half_even_intCast] at hr
    have hr' : (round_half_even (v / 2 ^ (Int.log 2 |v| - 52)) : α) ≤
        (9007199254740992 : α) := by
      exact_mod_cast hr
    calc _ ≤ (9007199254740992 : α) * 2 ^ (Int.log 2 |v| - 52) :=
          mul_le_mul_of_nonneg_right hr' hu.le
      _ = _ := e2

/-- The rounding of a negative value stays in the closed binade of the value. -/
theorem round_double_neg_bounds (v : α) (hv : v < 0) :
    -(2 : α) ^ (Int.log 2 |v| + 1) ≤ round_double v ∧
      round_double v ≤ -(2 : α) ^ Int.log 2 |v| := by
  obtain ⟨h1, h2⟩ := zpow_log_bounds v hv.ne
  have h1' : (2 : α) ^ Int.log 2 |v| ≤ -v := le_of_le_of_eq h1 (abs_of_neg hv)
  have h2' : -v < (2 : α) ^ (Int.log 2 |v| + 1) := lt_of_eq_of_lt (abs_of_neg hv).symm h2
  have hu : (0 : α) < (2 : α) ^ (Int.log 2 |v| - 52) := zpow_pos (by norm_num) _
  obtain ⟨e1, e2⟩ := zpow_ulp_mul α (Int.log 2 |v|)
  rw [round_double, if_neg hv.ne]
  constructor
  · have hq : ((-9007199254740992 : ℤ) : α) ≤ v / 2 ^ (Int.log 2 |v| - 52) := by
      rw [le_div_iff₀ hu]
      push_cast
      rw [neg_mul, e2]; linarith
    have hr := round_half_even_mono _ _ hq
    rw [round_half_even_intCast] at hr
    have hr' : (-9007199254740992 : α) ≤
        (round_half_even (v / 2 ^ (Int.log 2 |v| - 52)) : α) := by
      exact_mod_cast hr
    have h3 := mul_le_mul_of_nonneg_right hr' hu.le
    rw [neg_mul, e2] at h3
    exact h3
  · have hq : v / 2 ^ (Int.log 2 |v| - 52) ≤ ((-4503599627370496 : ℤ) : α) := by
      rw [div_le_iff₀ hu]
      push_cast
      rw [neg_mul, e1]; linarith
    have hr := round_half_even_mono _ _ hq
    rw [round_half_even_intCast] at hr
    have hr' : (round_half_even (v / 2 ^ (Int.log 2 |v| - 52)) : α) ≤
        (-4503599627370496 : α) := by
      exact_mod_cast hr
    have h3 := mul_le_mul_of_nonneg_right hr' hu.le
    rw [neg_mul, e1] at h3
    exact h3

theorem round_double_same_binade (v w : α) (hv : v ≠ 0) (hw : w ≠ 0) (h : v ≤ w)
    (he : Int.log 2 |v| = Int.log 2 |w|) : round_double v ≤ round_double w := by
  have hu : (0 : α) < (2 : α) ^ (Int.log 2 |w| - 52) := zpow_pos (by norm_num) _
  rw [round_double, round_double, if_neg hv, if_neg hw, he]
  apply mul_le_mul_of_nonneg_right _ hu.le
  have := round_half_even_mono _ _ (div_le_div_of_nonneg_right h hu.le)
  exact_mod_cast this

/-- Rounding to binary64 is monotone. -/
theorem round_double_mono : Monotone (round_double : α → α) := by
  intro v w h
  have h2 : (1 : α) ≤ 2 := by norm_num
  rcases lt_trichotomy v 0 with hv | hv | hv
  · have bv := round_double_neg_bounds v hv
    have pv : (0 : α) < (2 : α) ^ Int.log 2 |v| := zpow_pos (by norm_num) _
    rcases lt_trichotomy w 0 with hw | hw | hw
    · have bw := round_double_neg_bounds w hw
      have hab : |w| ≤ |v| := by rw [abs_of_neg hv, abs_of_neg hw]; linarith
      have hlog : Int.log 2 |w| ≤ Int.log 2 |v| :=
        Int.log_mono_right (abs_pos.mpr hw.ne) hab
      rcases hlog.lt_or_eq with hlt | heq
      · have : (2 : α) ^ (Int.log 2 |w| + 1) ≤ (2 : α) ^ Int.log 2 |v| :=
          zpow_le_zpow_right₀ h2 (by omega)
        linarith [bv.2, bw.1]
      · exact round_double_same_binade v w hv.ne hw.ne h heq.symm
    · rw [hw]
      have : round_double (0 : α) = 0 := by simp [round_double]
      rw [this]; linarith [bv.2]
    · have bw := round_double_pos_bounds w hw
      have pw : (0 : α) < (2 : α) ^ Int.log 2 |w| := zpow_pos (by norm_num) _
      linarith [bv.2, bw.1]
  · rw [hv] at h ⊢
    have h0 : round_double (0 : α) = 0 := by simp [round_double]
    rcases h.lt_or_eq with hw | hw
    · have bw := round_double_pos_bounds w hw
      have pw : (0 : α) < (2 : α) ^ Int.log 2 |w| := zpow_pos (by norm_num) _
      rw [h0]; linarith [bw.1]
    · rw [← hw]
  · have hw : 0 < w := lt_of_lt_of_le hv h
    have bv := round_double_pos_bounds v hv
    have bw := round_double_pos_bounds w hw
    have hab : |v| ≤ |w| := by rw [abs_of_pos hv, abs_of_pos hw]; exact h
    have hlog : Int.log 2 |v| ≤ Int.log 2 |w| :=
      Int.log_mono_right (abs_pos.mpr hv.ne') hab
    rcases hlog.lt_or_eq with hlt | heq
    · have : (2 : α) ^ (Int.log 2 |v| + 1) ≤ (2 : α) ^ Int.log 2 |w| :=
        zpow_le_zpow_right₀ h2 (by omega)
      linarith [bv.2, bw.1]
    · exact round_double_same_binade v w hv.ne' hw.ne' h heq

/-- The relative error of rounding to binary64 is at most `2 ^ (-53)`. -/
theorem round_double_error (v : α) : |round_double v - v| ≤ |v| / 2 ^ 53 := by
  by_cases hv : v = 0
  · simp [round_double, hv]
  obtain ⟨h1, -⟩ := zpow_log_bounds v hv
  have hu : (0 : α) < (2 : α) ^ (Int.log 2 |v| - 52) := zpow_pos (by norm_num) _
  obtain ⟨e1, -⟩ := zpow_ulp_mul α (Int.log 2 |v|)
  have herr := round_half_even_error (v / 2 ^ (Int.log 2 |v| - 52))
  rw [round_double, if_neg hv]
  have hsplit : (round_half_even (v / 2 ^ (Int.log 2 |v| - 52)) : α)
        * 2 ^ (Int.log 2 |v| - 52) - v
      = ((round_half_even (v / 2 ^ (Int.log 2 |v| - 52)) : α)
          - v / 2 ^ (Int.log 2 |v| - 52)) * 2 ^ (Int.log 2 |v| - 52) := by
    field_simp
  rw [hsplit, abs_mul, abs_of_pos hu]
  have h3 : (4503599627370496 : α) * (2 : α) ^ (Int.log 2 |v| - 52) ≤ |v| := by
    rw [e1]; exact h1
  have h4 := mul_le_mul_of_nonneg_right herr hu.le
  rw [le_div_iff₀ (by positivity)]
  nlinarith

end RoundingLemmas

/-! ## The point buffer -/

section Buffer

theorem vector_resize_length (points : List SDL_Point) (n : ℕ) :
    (vector_resize points n).length = n := by
  simp only [vector_resize, List.length_append, List.length_take, List.length_replicate]
  omega

theorem foldl_set_length (f : ℕ → SDL_Point) (l : List ℕ) :
    ∀ buf : List SDL_Point,
      (l.foldl (fun points i => points.set i (f i)) buf).length = buf.length := by
  induction l with
  | nil => intro buf; rfl
  | cons a l ih => intro buf; rw [List.foldl_cons, ih, List.length_set]

theorem foldl_set_getElem? (f : ℕ → SDL_Point) (l : List ℕ) :
    ∀ (buf : List SDL_Point) (j : ℕ), j < buf.length →
      (l.foldl (fun points i => points.set i (f i)) buf)[j]?
        = if j ∈ l then some (f j) else buf[j]? := by
  induction l with
  | nil => intro buf j _; simp
  | cons a l ih =>
    intro buf j hj
    rw [List.foldl_cons, ih (buf.set a (f a)) j (by rw [List.length_set]; exact hj)]
    by_cases h1 : j ∈ l
    · rw [if_pos h1, if_pos (List.mem_cons_of_mem a h1)]
    · rw [if_neg h1]
      by_cases h2 : j = a
      · subst h2
        rw [if_pos (List.mem_cons_self j l), List.getElem?_set_self hj]
      · rw [if_neg (by simp [h1, h2]), List.getElem?_set_ne (Ne.symm h2)]

theorem foldl_set_eq_map (f : ℕ → SDL_Point) (l : List ℕ) (n : ℕ) (buf : List SDL_Point)
    (hbuf : buf.length = n) (hl : l.Perm (List.range n)) :
    l.foldl (fun points i => points.set i (f i)) buf = (List.range n).map f := by
  apply List.ext_getElem?
  intro j
  by_cases hj : j < n
  · rw [foldl_set_getElem? f l buf j (by omega),
      if_pos (hl.mem_iff.mpr (List.mem_range.mpr hj)), List.getElem?_map,
      List.getElem?_range hj]
    rfl
  · rw [List.getElem?_eq_none (by rw [foldl_set_length, hbuf]; omega),
      List.getElem?_eq_none (by rw [List.length_map, List.length_range]; omega)]

/-- A pass in which every iteration returns is the pass of the returned points. -/
theorem foldl_bind_set (f : ℕ → Option SDL_Point) (g : ℕ → SDL_Point) (l : List ℕ) :
    (∀ i ∈ l, f i = some (g i)) → ∀ buf : List SDL_Point,
      l.foldl (fun state i => state.bind fun points => (f i).map fun point => points.set i point)
          (some buf)
        = some (l.foldl (fun points i => points.set i (g i)) buf) := by
  induction l with
  | nil => intro _ buf; rfl
  | cons a l ih =>
    intro h buf
    rw [List.foldl_cons, List.foldl_cons, Option.some_bind, h a (List.mem_cons_self a l),
      Option.map_some']
    exact ih (fun i hi => h i (List.mem_cons_of_mem a hi)) _

variable {α : Type} [LinearOrderedField α]

theorem trig_values_exact (n : ℕ) (fl : α → α) (pi : α) (sin cos : α → α) (fuel : ℕ)
    (num_threads : ℕ) (rt : Runtime) (i : ℕ) :
    trig_values n fl pi sin cos fuel false num_threads rt i
      = some (cos (circle_angle n fl pi i), sin (circle_angle n fl pi i)) := by
  simp [trig_values]

theorem circle_angle_exact (n : ℕ) (pi : α) (i : ℕ) :
    circle_angle n id pi i = 2 * pi * (i : α) / (n : α) := by
  simp [circle_angle]

theorem normalize_angle_exact (n : ℕ) (pi : α) (hpi : 0 < pi) (i : ℕ) (hi : i < n)
    (fuel : ℕ) :
    ∃ x' : α, normalize id pi (fuel + 2) (circle_angle n id pi i) = some x' := by
  rw [circle_angle_exact]
  have hn : (0 : α) < (n : α) := by exact_mod_cast (by omega : 0 < n)
  have hin : (i : α) < (n : α) := by exact_mod_cast hi
  have h0 : (0 : α) ≤ 2 * pi * (i : α) / (n : α) := by positivity
  have h2 : 2 * pi * (i : α) / (n : α) < 2 * pi := by
    rw [div_lt_iff₀ hn]
    have : (0 : α) < 2 * pi := by linarith
    exact mul_lt_mul_of_pos_left hin this
  by_cases hle : 2 * pi * (i : α) / (n : α) ≤ pi
  · exact ⟨_, normalize_of_mem id pi (fuel + 1) _ (by linarith) hle⟩
  · have hgt : 2 * pi * (i : α) / (n : α) > pi := not_le.mp hle
    refine ⟨2 * pi * (i : α) / (n : α) - 2 * pi, ?_⟩
    rw [normalize, reduce_down, if_pos hgt, id_eq, id_eq,
      reduce_down_of_le id pi fuel _ (by linarith), Option.some_bind,
      reduce_up_of_ge id pi (fuel + 1) _ (by linarith)]

theorem trig_values_taylor (n : ℕ) (pi : α) (hpi : 0 < pi) (sin cos : α → α) (fuel : ℕ)
    (num_threads : ℕ) (rt : Runtime) (i : ℕ) (hi : i < n)
    (hs : Fair (rt.share_sine num_threads i) (loop_iterations TAYLOR_TERMS 1))
    (hc : Fair (rt.share_cosine num_threads i) (loop_iterations TAYLOR_TERMS 0)) :
    ∃ c s : α,
      taylor_cosine id pi (fuel + 2) (circle_angle n id pi i) TAYLOR_TERMS = some c ∧
      taylor_sine id pi (fuel + 2) (circle_angle n id pi i) TAYLOR_TERMS = some s ∧
      trig_values n id pi sin cos (fuel + 2) true num_threads rt i = some (c, s) := by
  obtain ⟨x', hx'⟩ := normalize_angle_exact n pi hpi i hi fuel
  have hcos := taylor_cosine_team_eq_serial pi (fuel + 2) (circle_angle n id pi i)
    TAYLOR_TERMS _ hc
  have hsin := taylor_sine_team_eq_serial pi (fuel + 2) (circle_angle n id pi i)
    TAYLOR_TERMS _ hs
  have hc' : taylor_cosine id pi (fuel + 2) (circle_angle n id pi i) TAYLOR_TERMS
      = some (parallel_reduction id (cosine_term id x')
          (one_thread (loop_iterations TAYLOR_TERMS 0))) :=
    taylor_cosine_team_of_normalize id pi _ _ x' _ _ hx'
  have hs' : taylor_sine id pi (fuel + 2) (circle_angle n id pi i) TAYLOR_TERMS
      = some (parallel_reduction id (sine_term id x')
          (one_thread (loop_iterations TAYLOR_TERMS 1))) :=
    taylor_sine_team_of_normalize id pi _ _ x' _ _ hx'
  refine ⟨_, _, hc', hs', ?_⟩
  simp only [trig_values, if_true, hcos, hsin, hc', hs', Option.some_bind, Option.map_some']

variable [FloorRing α]

theorem compute_circle_points_eq_map (n : ℕ) (fl : α → α) (pi : α) (sin cos : α → α)
    (fuel : ℕ) (center_x center_y radius : ℤ) (points : List SDL_Point) (use_taylor : Bool)
    (num_threads : ℕ) (rt : Runtime) (g : ℕ → SDL_Point)
    (h : Fair (rt.share_points num_threads) (List.range n))
    (hg : ∀ i : ℕ, i < n →
      circle_point n fl pi sin cos fuel center_x center_y radius use_taylor num_threads rt i
        = some (g i)) :
    compute_circle_points n fl pi sin cos fuel center_x center_y radius points use_taylor
        num_threads rt
      = some ((List.range n).map g) := by
  simp only [compute_circle_points]
  rw [foldl_bind_set _ g _ (fun i hi => hg i (List.mem_range.mp (h.mem_iff.mp hi))),
    foldl_set_eq_map g _ n _ (vector_resize_length points n) h]

theorem circle_point_exact (n : ℕ) (fl : α → α) (pi : α) (sin cos : α → α) (fuel : ℕ)
    (center_x center_y radius : ℤ) (num_threads : ℕ) (rt : Runtime) (i : ℕ) :
    circle_point n fl pi sin cos fuel center_x center_y radius false num_threads rt i
      = some (make_point fl center_x center_y radius (cos (circle_angle n fl pi i))
          (sin (circle_angle n fl pi i))) := by
  rw [circle_point, trig_values_exact, Option.map_some']

theorem make_point_of_no_overflow (fl : α → α) (center_x center_y radius : ℤ)
    (cos_value sin_value : α)
    (h : no_overflow fl center_x center_y radius cos_value sin_value) :
    make_point fl center_x center_y radius cos_value sin_value
      = ⟨static_cast_int (fl ((radius : α) * cos_value)) + center_x,
         static_cast_int (fl ((radius : α) * sin_value)) + center_y⟩ := by
  simp only [make_point, wrap_int_of_fits _ h.2.1, wrap_int_of_fits _ h.2.2.2]

end Buffer

/-! ## Truncation and the distance from the centre -/

section Distance

theorem truncated_distance (u v a b r : ℝ) (hau : |u - a| < 1) (hbv : |v - b| < 1)
    (ha : |a| ≤ |u|) (hb : |b| ≤ |v|) (hr : 0 ≤ r) (h : u ^ 2 + v ^ 2 = r ^ 2) :
    r - Real.sqrt 2 < Real.sqrt (a ^ 2 + b ^ 2) ∧ Real.sqrt (a ^ 2 + b ^ 2) ≤ r := by
  have ha2 : a ^ 2 ≤ u ^ 2 := sq_le_sq.mpr ha
  have hb2 : b ^ 2 ≤ v ^ 2 := sq_le_sq.mpr hb
  have hd0 : 0 ≤ Real.sqrt (a ^ 2 + b ^ 2) := Real.sqrt_nonneg _
  have hd2 : Real.sqrt (a ^ 2 + b ^ 2) ^ 2 = a ^ 2 + b ^ 2 := Real.sq_sqrt (by positivity)
  have hs0 : 0 ≤ Real.sqrt 2 := Real.sqrt_nonneg _
  have hs2 : Real.sqrt 2 ^ 2 = 2 := Real.sq_sqrt (by norm_num)
  constructor
  · -- the error vector has both components below one
    have he1 : (u - a) ^ 2 < 1 := by
      have := sq_lt_sq.mpr (show |u - a| < |(1 : ℝ)| by simpa using hau)
      simpa using this
    have he2 : (v - b) ^ 2 < 1 := by
      have := sq_lt_sq.mpr (show |v - b| < |(1 : ℝ)| by simpa using hbv)
      simpa using this
    -- Cauchy-Schwarz for the inner product of the point with the error
    have hcs : a * (u - a) + b * (v - b) ≤ Real.sqrt 2 * Real.sqrt (a ^ 2 + b ^ 2) := by
      have h1 : (a * (u - a) + b * (v - b)) ^ 2 ≤ 2 * (a ^ 2 + b ^ 2) := by
        have hc : (a * (u - a) + b * (v - b)) ^ 2
            ≤ (a ^ 2 + b ^ 2) * ((u - a) ^ 2 + (v - b) ^ 2) := by
          nlinarith [sq_nonneg (a * (v - b) - b * (u - a))]
        have hn : 0 ≤ a ^ 2 + b ^ 2 := by positivity
        nlinarith
      have h2 := Real.abs_le_sqrt h1
      rw [Real.sqrt_mul (by norm_num)] at h2
      exact le_trans (le_abs_self _) h2
    have hlt : r ^ 2 < (Real.sqrt (a ^ 2 + b ^ 2) + Real.sqrt 2) ^ 2 := by
      have : r ^ 2 = a ^ 2 + b ^ 2 + 2 * (a * (u - a) + b * (v - b))
          + (u - a) ^ 2 + (v - b) ^ 2 := by rw [← h]; ring
      rw [this, add_sq, hd2, hs2]
      nlinarith
    have := abs_lt_of_sq_lt_sq hlt (by positivity)
    rw [abs_of_nonneg hr] at this
    linarith
  · rw [← Real.sqrt_sq hr]
    apply Real.sqrt_le_sqrt
    linarith

theorem dist_sq_of_offsets (tx ty center_x center_y : ℤ) :
    ((dist_sq ⟨tx + center_x, ty + center_y⟩ center_x center_y : ℤ) : ℝ)
      = (tx : ℝ) ^ 2 + (ty : ℝ) ^ 2 := by
  simp [dist_sq]

/-- Whatever the rounding and the values of the backend, when no `int` overflows the
point is at most as far from the centre as the computed offset `(u, v)` and less than
`√2` short of it. -/
theorem make_point_distance (fl : ℝ → ℝ) (center_x center_y radius : ℤ)
    (cos_value sin_value : ℝ)
    (h : no_overflow fl center_x center_y radius cos_value sin_value) :
    Real.sqrt (fl ((radius : ℝ) * cos_value) ^ 2 + fl ((radius : ℝ) * sin_value) ^ 2)
        - Real.sqrt 2
      < Real.sqrt (dist_sq (make_point fl center_x center_y radius cos_value sin_value)
          center_x center_y) ∧
    Real.sqrt (dist_sq (make_point fl center_x center_y radius cos_value sin_value)
          center_x center_y)
      ≤ Real.sqrt (fl ((radius : ℝ) * cos_value) ^ 2 + fl ((radius : ℝ) * sin_value) ^ 2) := by
  rw [make_point_of_no_overflow fl center_x center_y radius cos_value sin_value h,
    dist_sq_of_offsets]
  obtain ⟨c1, c2, -, -⟩ := static_cast_int_spec (fl ((radius : ℝ) * cos_value))
  obtain ⟨s1, s2, -, -⟩ := static_cast_int_spec (fl ((radius : ℝ) * sin_value))
  exact truncated_distance _ _ _ _ _ c2 s2 c1 s1 (Real.sqrt_nonneg _)
    (Real.sq_sqrt (by positivity)).symm

theorem exact_offset_length (radius : ℤ) (hr : 0 ≤ radius) (θ : ℝ) :
    Real.sqrt (id ((radius : ℝ) * Real.cos θ) ^ 2 + id ((radius : ℝ) * Real.sin θ) ^ 2)
      = radius := by
  have h := Real.cos_sq_add_sin_sq θ
  have hr' : (0 : ℝ) ≤ (radius : ℝ) := by exact_mod_cast hr
  have e : id ((radius : ℝ) * Real.cos θ) ^ 2 + id ((radius : ℝ) * Real.sin θ) ^ 2
      = (radius : ℝ) ^ 2 := by
    simp only [id_eq]
    calc ((radius : ℝ) * Real.cos θ) ^ 2 + ((radius : ℝ) * Real.sin θ) ^ 2
        = (radius : ℝ) ^ 2 * (Real.cos θ ^ 2 + Real.sin θ ^ 2) := by ring
      _ = (radius : ℝ) ^ 2 := by rw [h, mul_one]
  rw [e, Real.sqrt_sq hr']

/-- In exact arithmetic no conversion or addition overflows when
`radius + |center|` fits in an `int`. -/
theorem no_overflow_exact (center_x center_y radius : ℤ) (hr : 0 ≤ radius)
    (hx : radius + |center_x| ≤ 2147483647) (hy : radius + |center_y| ≤ 2147483647)
    (θ : ℝ) : no_overflow id center_x center_y radius (Real.cos θ) (Real.sin θ) := by
  have hr' : (0 : ℝ) ≤ (radius : ℝ) := by exact_mod_cast hr
  have hc : |id ((radius : ℝ) * Real.cos θ)| ≤ (radius : ℝ) := by
    rw [id_eq, abs_mul, abs_of_nonneg hr']
    exact mul_le_of_le_one_right hr' (Real.abs_cos_le_one θ)
  have hs : |id ((radius : ℝ) * Real.sin θ)| ≤ (radius : ℝ) := by
    rw [id_eq, abs_mul, abs_of_nonneg hr']
    exact mul_le_of_le_one_right hr' (Real.abs_sin_le_one θ)
  obtain ⟨a1, a2⟩ := fits_int_of_abs_le _ radius center_x hc hx
  obtain ⟨b1, b2⟩ := fits_int_of_abs_le _ radius center_y hs hy
  exact ⟨a1, a2, b1, b2⟩

/-- An `int` addition that overflows wraps around: with centre `(1, 0)` and radius
`2147483647` the point of a cosine `1` and a sine `0` has `x = -2147483648`. -/
theorem make_point_wraps :
    make_point id 1 0 2147483647 (1 : ℝ) 0 = ⟨-2147483648, 0⟩ ∧
      ¬ no_overflow id 1 0 2147483647 (1 : ℝ) 0 := by
  have hx : static_cast_int (id (((2147483647 : ℤ) : ℝ) * 1)) = 2147483647 := by
    apply static_cast_int_eq _ 2147483647 <;> norm_num
  have hy : static_cast_int (id (((2147483647 : ℤ) : ℝ) * 0)) = 0 := by
    apply static_cast_int_eq _ 0 <;> norm_num
  constructor
  · simp only [make_point, hx, hy]
    decide
  · simp only [no_overflow, hx, hy]
    decide

end Distance

/-! ## The length of the offset in binary64 arithmetic -/

section DoubleDistance

theorem sqrt_offsets_le (u v a b : ℝ) :
    Real.sqrt (u ^ 2 + v ^ 2) ≤ Real.sqrt (a ^ 2 + b ^ 2) + (|u - a| + |v - b|) := by
  have hA0 : 0 ≤ Real.sqrt (a ^ 2 + b ^ 2) := Real.sqrt_nonneg _
  have hA2 : Real.sqrt (a ^ 2 + b ^ 2) ^ 2 = a ^ 2 + b ^ 2 := Real.sq_sqrt (by positivity)
  have ha : |a| ≤ Real.sqrt (a ^ 2 + b ^ 2) := Real.abs_le_sqrt (by nlinarith [sq_nonneg b])
  have hb : |b| ≤ Real.sqrt (a ^ 2 + b ^ 2) := Real.abs_le_sqrt (by nlinarith [sq_nonneg a])
  have hp : 0 ≤ |u - a| := abs_nonneg _
  have hq : 0 ≤ |v - b| := abs_nonneg _
  have hu : |u| ≤ |a| + |u - a| := by
    have := abs_add a (u - a)
    rwa [add_sub_cancel] at this
  have hv : |v| ≤ |b| + |v - b| := by
    have := abs_add b (v - b)
    rwa [add_sub_cancel] at this
  have hu2 : u ^ 2 ≤ (|a| + |u - a|) ^ 2 := by
    rw [← sq_abs u]
    exact pow_le_pow_left₀ (abs_nonneg u) hu 2
  have hv2 : v ^ 2 ≤ (|b| + |v - b|) ^ 2 := by
    rw [← sq_abs v]
    exact pow_le_pow_left₀ (abs_nonneg v) hv 2
  have ha0 : 0 ≤ |a| := abs_nonneg _
  have hb0 : 0 ≤ |b| := abs_nonneg _
  have haa : |a| ^ 2 = a ^ 2 := sq_abs a
  have hbb : |b| ^ 2 = b ^ 2 := sq_abs b
  rw [← Real.sqrt_sq (by positivity :
    (0 : ℝ) ≤ Real.sqrt (a ^ 2 + b ^ 2) + (|u - a| + |v - b|))]
  apply Real.sqrt_le_sqrt
  nlinarith [mul_nonneg hp hq, mul_le_mul_of_nonneg_right ha hp,
    mul_le_mul_of_nonneg_right hb hq]

theorem abs_sqrt_offsets_sub_le (u v a b : ℝ) :
    |Real.sqrt (u ^ 2 + v ^ 2) - Real.sqrt (a ^ 2 + b ^ 2)| ≤ |u - a| + |v - b| := by
  rw [abs_le]
  have h1 := sqrt_offsets_le u v a b
  have h2 := sqrt_offsets_le a b u v
  rw [abs_sub_comm a u, abs_sub_comm b v] at h2
  constructor <;> linarith

/-- The binary64 product of the radius and a sine or cosine `c` that is within `ε` of
the exact value `t`. -/
theorem round_double_product_error (radius : ℤ) (hr : 0 ≤ radius) (c t ε : ℝ)
    (ht : |t| ≤ 1) (hc : |c - t| ≤ ε) (hε : ε ≤ 1) :
    |round_double ((radius : ℝ) * c) - (radius : ℝ) * t| ≤ (radius : ℝ) * (ε + 1 / 2 ^ 52) ∧
      |round_double ((radius : ℝ) * c)| ≤ 2 * (radius : ℝ) + (radius : ℝ) / 2 ^ 52 := by
  have hr' : (0 : ℝ) ≤ (radius : ℝ) := by exact_mod_cast hr
  have hc2 : |c| ≤ 2 := by
    have := abs_add t (c - t)
    rw [add_sub_cancel] at this
    linarith
  have hrc : |(radius : ℝ) * c| ≤ 2 * (radius : ℝ) := by
    rw [abs_mul, abs_of_nonneg hr']
    nlinarith
  have h1 := round_double_error ((radius : ℝ) * c)
  have h2 : |(radius : ℝ) * c - (radius : ℝ) * t| ≤ (radius : ℝ) * ε := by
    rw [← mul_sub, abs_mul, abs_of_nonneg hr']
    exact mul_le_mul_of_nonneg_left hc hr'
  have h3 : |(radius : ℝ) * c| / 2 ^ 53 ≤ (radius : ℝ) / 2 ^ 52 := by
    rw [div_le_div_iff₀ (by positivity) (by positivity)]
    nlinarith
  constructor
  · have := abs_add (round_double ((radius : ℝ) * c) - (radius : ℝ) * c)
      ((radius : ℝ) * c - (radius : ℝ) * t)
    rw [sub_add_sub_cancel] at this
    have e : (radius : ℝ) * (ε + 1 / 2 ^ 52) = (radius : ℝ) * ε + (radius : ℝ) / 2 ^ 52 := by
      ring
    rw [e]
    linarith
  · have := abs_add (round_double ((radius : ℝ) * c) - (radius : ℝ) * c) ((radius : ℝ) * c)
    rw [sub_add_cancel] at this
    linarith

/-- The length of the offset that the code computes in binary64, with a sine and a
cosine within `ε` of the exact ones, is within `2 * radius * (ε + 2 ^ (-52))` of the
radius. -/
theorem double_offset_length (radius : ℤ) (hr : 0 ≤ radius) (θ c s ε : ℝ)
    (hc : |c - Real.cos θ| ≤ ε) (hs : |s - Real.sin θ| ≤ ε) (hε : ε ≤ 1) :
    |Real.sqrt (round_double ((radius : ℝ) * c) ^ 2 + round_double ((radius : ℝ) * s) ^ 2)
        - (radius : ℝ)| ≤ 2 * (radius : ℝ) * (ε + 1 / 2 ^ 52) := by
  have hr' : (0 : ℝ) ≤ (radius : ℝ) := by exact_mod_cast hr
  have h1 := (round_double_product_error radius hr c (Real.cos θ) ε
    (Real.abs_cos_le_one θ) hc hε).1
  have h2 := (round_double_product_error radius hr s (Real.sin θ) ε
    (Real.abs_sin_le_one θ) hs hε).1
  have h3 := abs_sqrt_offsets_sub_le (round_double ((radius : ℝ) * c))
    (round_double ((radius : ℝ) * s)) ((radius : ℝ) * Real.cos θ) ((radius : ℝ) * Real.sin θ)
  have h4 := exact_offset_length radius hr θ
  simp only [id_eq] at h4
  rw [h4] at h3
  linarith

/-- In binary64 no conversion or addition overflows when `2 * radius + 1 + |center|`
fits in an `int`. -/
theorem no_overflow_double (center_x center_y radius : ℤ) (hr : 0 ≤ radius)
    (hx : 2 * radius + 1 + |center_x| ≤ 2147483647)
    (hy : 2 * radius + 1 + |center_y| ≤ 2147483647) (θ c s ε : ℝ)
    (hc : |c - Real.cos θ| ≤ ε) (hs : |s - Real.sin θ| ≤ ε) (hε : ε ≤ 1) :
    no_overflow round_double center_x center_y radius c s := by
  have hr' : (0 : ℝ) ≤ (radius : ℝ) := by exact_mod_cast hr
  have hx0 := abs_nonneg center_x
  have hr2 : (radius : ℝ) ≤ 2147483647 := by exact_mod_cast (by omega : radius ≤ 2147483647)
  have hsmall : (radius : ℝ) / 2 ^ 52 ≤ 1 := by
    rw [div_le_one (by positivity)]
    norm_num
    linarith
  have h1 := (round_double_product_error radius hr c (Real.cos θ) ε
    (Real.abs_cos_le_one θ) hc hε).2
  have h2 := (round_double_product_error radius hr s (Real.sin θ) ε
    (Real.abs_sin_le_one θ) hs hε).2
  have b1 : |round_double ((radius : ℝ) * c)| ≤ ((2 * radius + 1 : ℤ) : ℝ) := by
    push_cast; linarith
  have b2 : |round_double ((radius : ℝ) * s)| ≤ ((2 * radius + 1 : ℤ) : ℝ) := by
    push_cast; linarith
  obtain ⟨a1, a2⟩ := fits_int_of_abs_le _ (2 * radius + 1) center_x b1 hx
  obtain ⟨c1, c2⟩ := fits_int_of_abs_le _ (2 * radius + 1) center_y b2 hy
  exact ⟨a1, a2, c1, c2⟩

end DoubleDistance

/-! ## The thread counts of the benchmark -/

section Benchmark

theorem doubling_loop_spec (m : ℕ) (hm : m ≠ 0) (hlt : m < 2 ^ 30) :
    ∀ (d j fuel : ℕ), d = Nat.log 2 m + 1 - j → j ≤ Nat.log 2 m + 1 → d < fuel →
      doubling_loop (m : ℤ) fuel ((2 : ℤ) ^ j)
        = some ((List.range d).map (fun k => (2 : ℤ) ^ (j + k))) := by
  have hL : Nat.log 2 m < 30 := Nat.log_lt_of_lt_pow hm hlt
  intro d
  induction d with
  | zero =>
    intro j fuel hd hj hf
    obtain ⟨f, rfl⟩ : ∃ f, fuel = f + 1 := ⟨fuel - 1, by omega⟩
    have hgt : ¬ 2 ^ j ≤ m := by
      rw [Nat.pow_le_iff_le_log (by norm_num) hm]
      omega
    have hgt' : ¬ (2 : ℤ) ^ j ≤ (m : ℤ) := by exact_mod_cast hgt
    rw [doubling_loop, if_neg hgt']
    rfl
  | succ d ih =>
    intro j fuel hd hj hf
    obtain ⟨f, rfl⟩ : ∃ f, fuel = f + 1 := ⟨fuel - 1, by omega⟩
    have hle : 2 ^ j ≤ m := by
      rw [Nat.pow_le_iff_le_log (by norm_num) hm]
      omega
    have hle' : (2 : ℤ) ^ j ≤ (m : ℤ) := by exact_mod_cast hle
    have hpos : (0 : ℤ) < (2 : ℤ) ^ j := by positivity
    have hm' : (m : ℤ) < 1073741824 := by exact_mod_cast hlt
    have hw : wrap_int ((2 : ℤ) ^ j * 2) = (2 : ℤ) ^ (j + 1) := by
      rw [wrap_int_of_fits _ (by unfold fits_int; omega), pow_succ]
    rw [doubling_loop, if_pos hle', hw, ih (j + 1) f (by omega) (by omega) (by omega),
      Option.map_some', List.range_succ_eq_map]
    simp only [List.map_cons, List.map_map, Nat.add_zero]
    congr 2
    apply List.map_congr_left
    intro k _
    simp only [Function.comp]
    congr 1
    omega

theorem doubling_loop_eq (max_threads : ℤ) (h1 : 1 ≤ max_threads)
    (h2 : max_threads < 1073741824) (fuel : ℕ) (hf : Nat.log 2 max_threads.toNat < fuel) :
    doubling_loop max_threads fuel 2
      = some ((List.range (Nat.log 2 max_threads.toNat)).map
          (fun k => (2 : ℤ) ^ (k + 1))) := by
  obtain ⟨m, rfl⟩ := Int.eq_ofNat_of_zero_le (by omega : 0 ≤ max_threads)
  have hm : m ≠ 0 := by omega
  have hlt : m < 2 ^ 30 := by
    have : (m : ℤ) < 1073741824 := h2
    norm_num
    exact_mod_cast this
  simp only [Int.toNat_ofNat] at hf ⊢
  have h := doubling_loop_spec m hm hlt (Nat.log 2 m) 1 fuel (by omega) (by omega) hf
  rw [pow_one] at h
  rw [h]
  congr 1
  apply List.map_congr_left
  intro k _
  rw [Nat.add_comm]

theorem mem_doubling_counts (max_threads : ℤ) (h1 : 1 ≤ max_threads) (p : ℤ) :
    p ∈ (List.range (Nat.log 2 max_threads.toNat)).map (fun k => (2 : ℤ) ^ (k + 1))
      ↔ ∃ k : ℕ, 1 ≤ k ∧ p = 2 ^ k ∧ p ≤ max_threads := by
  obtain ⟨m, rfl⟩ := Int.eq_ofNat_of_zero_le (by omega : 0 ≤ max_threads)
  have hm : m ≠ 0 := by omega
  simp only [Int.toNat_ofNat, List.mem_map, List.mem_range]
  constructor
  · rintro ⟨k, hk, rfl⟩
    refine ⟨k + 1, by omega, rfl, ?_⟩
    have : 2 ^ (k + 1) ≤ m := (Nat.pow_le_iff_le_log (by norm_num) hm).mpr (by omega)
    exact_mod_cast this
  · rintro ⟨k, hk, rfl, hle⟩
    have h1 : 2 ^ k ≤ m := by exact_mod_cast hle
    have h2 := (Nat.pow_le_iff_le_log (by norm_num) hm).mp h1
    exact ⟨k - 1, by omega, by congr 1; omega⟩

theorem doubling_counts_increasing (n : ℕ) :
    ((List.range n).map (fun k => (2 : ℤ) ^ (k + 1))).Pairwise (· < ·) := by
  rw [List.pairwise_map]
  refine (List.pairwise_lt_range _).imp ?_
  intro a b hab
  exact pow_lt_pow_right₀ (by norm_num) (by omega)

theorem doubling_loop_none_of_step (max_threads num_threads : ℤ)
    (h : num_threads ≤ max_threads)
    (hnext : ∀ fuel : ℕ, doubling_loop max_threads fuel (wrap_int (num_threads * 2)) = none) :
    ∀ fuel : ℕ, doubling_loop max_threads fuel num_threads = none := by
  intro fuel
  cases fuel with
  | zero => rfl
  | succ f => rw [doubling_loop, if_pos h, hnext f]; rfl

/-- From `max_threads = 2 ^ 30` on the counter of the doubling loop overflows: it goes
from `2 ^ 30` to `-2 ^ 31` and then to `0`, where it stays, and the loop never ends. -/
theorem doubling_loop_overflow (max_threads : ℤ) (h : 1073741824 ≤ max_threads) :
    ∀ fuel : ℕ, doubling_loop max_threads fuel 2 = none := by
  have h0 : ∀ fuel : ℕ, doubling_loop max_threads fuel 0 = none := by
    intro fuel
    induction fuel with
    | zero => rfl
    | succ f ih =>
      rw [doubling_loop, if_pos (by omega)]
      have : wrap_int (0 * 2) = 0 := by decide
      rw [this, ih]
      rfl
  have hneg : ∀ fuel : ℕ, doubling_loop max_threads fuel (-2147483648) = none := by
    apply doubling_loop_none_of_step _ _ (by omega)
    have : wrap_int (-2147483648 * 2) = 0 := by decide
    rw [this]
    exact h0
  have hpow : ∀ k : ℕ, k ≤ 29 →
      ∀ fuel : ℕ, doubling_loop max_threads fuel ((2 : ℤ) ^ (30 - k)) = none := by
    intro k
    induction k with
    | zero =>
      intro _
      apply doubling_loop_none_of_step _ _ (by norm_num; omega)
      have : wrap_int ((2 : ℤ) ^ (30 - 0) * 2) = -2147483648 := by decide
      rw [this]
      exact hneg
    | succ k ih =>
      intro hk
      have hle : (2 : ℤ) ^ (30 - (k + 1)) ≤ (2 : ℤ) ^ 30 :=
        pow_le_pow_right₀ (by norm_num) (by omega)
      have hpos : (0 : ℤ) < (2 : ℤ) ^ (30 - (k + 1)) := by positivity
      have e : (2 : ℤ) ^ (30 - k) = (2 : ℤ) ^ (30 - (k + 1)) * 2 := by
        rw [← pow_succ]
        congr 1
        omega
      have hle2 : (2 : ℤ) ^ (30 - (k + 1)) * 2 ≤ (2 : ℤ) ^ 30 := by
        rw [← e]
        exact pow_le_pow_right₀ (by norm_num) (by omega)
      norm_num at hle hle2
      apply doubling_loop_none_of_step _ _ (by omega)
      rw [wrap_int_of_fits _ (by unfold fits_int; omega), ← e]
      exact ih (by omega)
  have := hpow 29 le_rfl
  simpa using this

end Benchmark

/-! ## Binary64 arithmetic at chosen inputs -/

section DoubleArithmetic

/-- The rounding of a positive value, with the bounds in the shape that numerals are
checked in. -/
theorem round_double_pos (v : ℝ) (e n : ℤ) (r : ℝ) (hv : 0 < v) (h1 : (2 : ℝ) ^ e ≤ v)
    (h2 : v < (2 : ℝ) ^ (e + 1)) (hl : (n : ℝ) - 1 / 2 < v / 2 ^ (e - 52))
    (hu : v / 2 ^ (e - 52) < (n : ℝ) + 1 / 2) (hr : (n : ℝ) * 2 ^ (e - 52) = r) :
    round_double v = r := by
  rw [← hr]
  apply round_double_eq v e n
  · rwa [abs_of_pos hv]
  · rwa [abs_of_pos hv]
  · rw [abs_lt]
    constructor <;> linarith

theorem round_double_two_pi :
    round_double (2 * (M_PI_double : ℝ)) = 2 * M_PI_double := by
  apply round_double_pos _ 2 7074237752028440 <;> norm_num [M_PI_double]

theorem round_double_M_PI : round_double (M_PI_double : ℝ) = M_PI_double := by
  apply round_double_pos _ 1 7074237752028440 <;> norm_num [M_PI_double]

/-- In binary64 the loops reduce the angle `7` with one subtraction, which is exact. -/
theorem normalize_double_seven :
    normalize round_double (M_PI_double : ℝ) 3 7
      = some (100882699483741 / 140737488355328) := by
  have hstep : round_double ((7 : ℝ) - round_double (2 * (M_PI_double : ℝ)))
      = 100882699483741 / 140737488355328 := by
    rw [round_double_two_pi]
    apply round_double_pos _ (-1) 6456492766959424 <;> norm_num [M_PI_double]
  have hgt : (7 : ℝ) > M_PI_double := by norm_num [M_PI_double]
  have hle : (100882699483741 / 140737488355328 : ℝ) ≤ M_PI_double := by
    norm_num [M_PI_double]
  have hge : -(M_PI_double : ℝ) ≤ 100882699483741 / 140737488355328 := by
    norm_num [M_PI_double]
  rw [normalize, reduce_down, if_pos hgt, hstep, reduce_down_of_le _ _ _ _ hle,
    Option.some_bind, reduce_up_of_ge _ _ _ _ hge]

/-- In binary64 `1e17 - 2 * M_PI` is `1e17`. -/
theorem round_double_stall :
    round_double ((10 : ℝ) ^ 17 - round_double (2 * (M_PI_double : ℝ))) = (10 : ℝ) ^ 17 := by
  rw [round_double_two_pi]
  apply round_double_pos _ 56 6250000000000000 <;> norm_num [M_PI_double]

/-- The binary64 value of the angle of index `600000`, a sixth of the turn. -/
theorem circle_angle_sixth :
    circle_angle NUM_POINTS round_double (M_PI_double : ℝ) 600000
      = 4716158501352293 / 4503599627370496 := by
  have h1 : round_double (round_double (2 * (M_PI_double : ℝ)) * ((600000 : ℕ) : ℝ))
      = 8095822622713211 / 2147483648 := by
    rw [round_double_two_pi]
    apply round_double_pos _ 21 8095822622713211 <;> norm_num [M_PI_double]
  rw [circle_angle, h1]
  apply round_double_pos _ 0 4716158501352293 <;> norm_num [NUM_POINTS]

/-- The sine of the binary64 sixth of the turn, to within `2 ^ -56`. -/
theorem sin_sixth_bounds :
    (7800463371553962 - 1 / 4 : ℝ) / 9007199254740992
        < Real.sin (4716158501352293 / 4503599627370496) ∧
      Real.sin (4716158501352293 / 4503599627370496)
        < (7800463371553962 + 1 / 4 : ℝ) / 9007199254740992 := by
  have hr := sine_remainder 9 (4716158501352293 / 4503599627370496)
  rw [abs_le] at hr
  have hpos : |(4716158501352293 / 4503599627370496 : ℝ)|
      = 4716158501352293 / 4503599627370496 := abs_of_pos (by norm_num)
  rw [hpos] at hr
  norm_num [Finset.sum_range_succ, Nat.factorial] at hr
  constructor <;> linarith [hr.1, hr.2]

/-- The cosine of the binary64 sixth of the turn, to within `2 ^ -56`. -/
theorem cos_sixth_bounds :
    (4503599627370497 - 1 / 4 : ℝ) / 9007199254740992
        < Real.cos (4716158501352293 / 4503599627370496) ∧
      Real.cos (4716158501352293 / 4503599627370496)
        < (4503599627370497 + 1 / 4 : ℝ) / 9007199254740992 := by
  have hr := cosine_remainder 10 (4716158501352293 / 4503599627370496)
  rw [abs_le] at hr
  have hpos : |(4716158501352293 / 4503599627370496 : ℝ)|
      = 4716158501352293 / 4503599627370496 := abs_of_pos (by norm_num)
  rw [hpos] at hr
  norm_num [Finset.sum_range_succ, Nat.factorial] at hr
  constructor <;> linarith [hr.1, hr.2]

end DoubleArithmetic

/-! ## The series: exponents, range reduction and accuracy -/

section SeriesClaims

/-- C8. For every angle `x` and every `terms ≥ 1`, in exact arithmetic and with `x'` the
range-reduced angle, which the loops reach whenever they are given `fuel₀` tests or
more, `taylor_sine x terms` is the sum over exactly the odd exponents `1 ≤ i ≤ terms` of
`sign i * x' ^ i / i!`, with `sign i = 1` when `i % 4 = 1` and `-1` otherwise, and
`taylor_cosine x terms` is the sum over exactly the even exponents `0 ≤ i ≤ terms` with
`sign i = 1` when `i % 4 = 0` and `-1` otherwise. Each is the Maclaurin polynomial of
`sin`, respectively `cos`, cut at degree `terms` and taken at `x'`, and the inner loops
compute `i!` and `x' ^ i`. -/
theorem taylor_series_terms (x : ℝ) (terms : ℤ) (h : 1 ≤ terms) :
    ∃ (x' : ℝ) (fuel₀ : ℕ), -Real.pi ≤ x' ∧ x' ≤ Real.pi ∧
      (∀ fuel : ℕ, fuel₀ ≤ fuel →
        normalize id Real.pi fuel x = some x' ∧
        taylor_sine id Real.pi fuel x terms
          = some (∑ i in (Finset.Icc 1 terms.toNat).filter (fun i => i % 2 = 1),
              (if i % 4 = 1 then 1 else -1) * x' ^ i / (i.factorial : ℝ)) ∧
        taylor_cosine id Real.pi fuel x terms
          = some (∑ i in (Finset.Icc 0 terms.toNat).filter (fun i => i % 2 = 0),
              (if i % 4 = 0 then 1 else -1) * x' ^ i / (i.factorial : ℝ)) ∧
        taylor_sine id Real.pi fuel x terms
          = some (∑ i in Finset.range (terms.toNat + 1),
              iteratedDeriv i Real.sin 0 / (i.factorial : ℝ) * x' ^ i) ∧
        taylor_cosine id Real.pi fuel x terms
          = some (∑ i in Finset.range (terms.toNat + 1),
              iteratedDeriv i Real.cos 0 / (i.factorial : ℝ) * x' ^ i)) ∧
      (∀ i : ℕ, factorial_loop id i 1 (1 : ℝ) = (i.factorial : ℝ)) ∧
      ∀ i : ℕ, power_loop id x' i 1 1 = x' ^ i := by
  obtain ⟨t, rfl⟩ := Int.eq_ofNat_of_zero_le (by omega : 0 ≤ terms)
  obtain ⟨m, n, hrun, hlow, hup⟩ := normalize_exact Real.pi Real.pi_pos x
  refine ⟨_, m + n + 1, hlow, hup, fun fuel hf => ?_, factorial_loop_eq, power_loop_eq _⟩
  have hn := (hrun fuel (by omega)).2
  simp only [Int.toNat_ofNat]
  have hs := taylor_sine_eq_sum Real.pi fuel x _ t hn
  have hc := taylor_cosine_eq_sum Real.pi fuel x _ t hn
  rw [sine_sum_eq_exponents] at hs
  rw [cosine_sum_eq_exponents] at hc
  refine ⟨hn, hs, hc, ?_, ?_⟩
  · rw [maclaurin_sin_sum]; exact hs
  · rw [maclaurin_cos_sum]; exact hc

theorem taylor_series_terms_witness :
    (1 : ℤ) ≤ 10 ∧
      ∃ (x' : ℝ) (fuel₀ : ℕ), ∀ fuel : ℕ, fuel₀ ≤ fuel →
        normalize id Real.pi fuel 100 = some x' ∧
        taylor_sine id Real.pi fuel 100 10
          = some (∑ i in (Finset.Icc 1 (10 : ℤ).toNat).filter (fun i => i % 2 = 1),
              (if i % 4 = 1 then 1 else -1) * x' ^ i / (i.factorial : ℝ)) := by
  refine ⟨by norm_num, ?_⟩
  obtain ⟨x', fuel₀, -, -, h, -⟩ := taylor_series_terms 100 10 (by norm_num)
  exact ⟨x', fuel₀, fun fuel hf => ⟨(h fuel hf).1, (h fuel hf).2.1⟩⟩

/-- C9, as the code behaves. In exact real arithmetic, for every real angle `x` the two
range-reduction loops of `taylor_sine` and `taylor_cosine` end, after `m` subtractions
and `n` additions of `2π`; the reduced angle `x'` lies in `[-π, π]`, differs from `x` by
an integer multiple of `2π`, and is the angle at which the terms of both series are
taken. In rounded arithmetic, for every rounding that is monotone and exact on `M_PI`
and `2 * M_PI`, an angle that the loops return lies in `[-M_PI, M_PI]`, so the series is
never evaluated outside that interval; the loops need not return. -/
theorem range_reduction (x : ℝ) :
    (∃ (m n : ℕ) (x' : ℝ),
      (∀ fuel : ℕ, m + n < fuel →
        reduce_down id Real.pi fuel x = some (x - (m : ℝ) * (2 * Real.pi)) ∧
        normalize id Real.pi fuel x = some x' ∧
        (∀ (terms : ℤ) (share : Sharing),
          taylor_sine_team id Real.pi fuel x terms share
            = some (parallel_reduction id (sine_term id x')
                (share (loop_iterations terms 1)))) ∧
        ∀ (terms : ℤ) (share : Sharing),
          taylor_cosine_team id Real.pi fuel x terms share
            = some (parallel_reduction id (cosine_term id x')
                (share (loop_iterations terms 0)))) ∧
      x' = x - (m : ℝ) * (2 * Real.pi) + (n : ℝ) * (2 * Real.pi) ∧
      -Real.pi ≤ x' ∧ x' ≤ Real.pi ∧ ∃ k : ℤ, x' = x + (k : ℝ) * (2 * Real.pi)) ∧
    ∀ (fl : ℝ → ℝ) (pi : ℝ) (fuel : ℕ) (x' : ℝ), Monotone fl → fl (2 * pi) = 2 * pi →
      fl pi = pi → normalize fl pi fuel x = some x' → -pi ≤ x' ∧ x' ≤ pi := by
  constructor
  · obtain ⟨m, n, hrun, hlow, hup⟩ := normalize_exact Real.pi Real.pi_pos x
    refine ⟨m, n, _, fun fuel hf => ?_, rfl, hlow, hup, (n : ℤ) - (m : ℤ), ?_⟩
    · obtain ⟨hd, hn⟩ := hrun fuel hf
      exact ⟨hd, hn, fun terms share => taylor_sine_team_of_normalize id _ _ _ _ _ _ hn,
        fun terms share => taylor_cosine_team_of_normalize id _ _ _ _ _ _ hn⟩
    · push_cast
      ring
  · intro fl pi fuel x' hmono h2 h1 h
    exact normalize_mem fl pi hmono h2 h1 fuel x x' h

theorem range_reduction_witness :
    (Monotone (round_double : ℝ → ℝ) ∧
      round_double (2 * (M_PI_double : ℝ)) = 2 * M_PI_double ∧
      round_double (M_PI_double : ℝ) = M_PI_double ∧
      normalize round_double (M_PI_double : ℝ) 3 7
        = some (100882699483741 / 140737488355328)) ∧
    -(M_PI_double : ℝ) ≤ 100882699483741 / 140737488355328 ∧
    (100882699483741 / 140737488355328 : ℝ) ≤ M_PI_double :=
  ⟨⟨round_double_mono, round_double_two_pi, round_double_M_PI, normalize_double_seven⟩,
    (range_reduction 7).2 round_double M_PI_double 3 _ round_double_mono
      round_double_two_pi round_double_M_PI normalize_double_seven⟩

/-- C9, as stated, fails in binary64 arithmetic at `x = 1e17`: `x - 2 * M_PI` rounds back
to `x`, so the first loop never ends and neither `taylor_sine` nor `taylor_cosine`
returns. -/
theorem reduction_stalls_in_binary64 :
    (10 : ℝ) ^ 17 > M_PI_double ∧
    round_double ((10 : ℝ) ^ 17 - round_double (2 * (M_PI_double : ℝ))) = (10 : ℝ) ^ 17 ∧
    (∀ fuel : ℕ, reduce_down round_double (M_PI_double : ℝ) fuel ((10 : ℝ) ^ 17) = none) ∧
    ∀ (fuel : ℕ) (terms : ℤ),
      taylor_sine round_double (M_PI_double : ℝ) fuel ((10 : ℝ) ^ 17) terms = none ∧
      taylor_cosine round_double (M_PI_double : ℝ) fuel ((10 : ℝ) ^ 17) terms = none := by
  have hgt : (10 : ℝ) ^ 17 > M_PI_double := by norm_num [M_PI_double]
  have hstall := reduce_down_stall round_double (M_PI_double : ℝ) ((10 : ℝ) ^ 17) hgt
    round_double_stall
  refine ⟨hgt, round_double_stall, hstall, fun fuel terms => ?_⟩
  simp [taylor_sine, taylor_cosine, taylor_sine_team, taylor_cosine_team, normalize,
    hstall fuel]

end SeriesClaims

/-! ## The series: accuracy -/

section AccuracyClaims

/-- C1, as the code behaves. For every angle `θ` in `[-π, π]` and every `terms ≥ 10`, in
exact real arithmetic `taylor_sine θ terms` differs from `sin θ` by less than `8e-3` and
`taylor_cosine θ terms` from `cos θ` by less than `2e-3`; both differ by less than `1e-3`
once `terms ≥ 12`. -/
theorem taylor_accuracy (θ : ℝ) (terms : ℤ) (fuel : ℕ) (h1 : -Real.pi ≤ θ)
    (h2 : θ ≤ Real.pi) (ht : 10 ≤ terms) (hf : 1 ≤ fuel) :
    ∃ s c : ℝ, taylor_sine id Real.pi fuel θ terms = some s ∧
      taylor_cosine id Real.pi fuel θ terms = some c ∧
      |s - Real.sin θ| < 8 / 1000 ∧ |c - Real.cos θ| < 2 / 1000 ∧
      (12 ≤ terms → |s - Real.sin θ| < 1 / 1000 ∧ |c - Real.cos θ| < 1 / 1000) := by
  obtain ⟨t, rfl⟩ := Int.eq_ofNat_of_zero_le (by omega : 0 ≤ terms)
  obtain ⟨f, rfl⟩ : ∃ f, fuel = f + 1 := ⟨fuel - 1, by omega⟩
  have ht' : 10 ≤ t := by exact_mod_cast ht
  have habs : |θ| ≤ Real.pi := abs_le.mpr ⟨h1, h2⟩
  obtain ⟨s, hs, hs11⟩ := taylor_sine_error θ h1 h2 f t 11 (by norm_num) (by omega) (by omega)
  obtain ⟨c, hc, hc12⟩ := taylor_cosine_error θ h1 h2 f t 12 (by norm_num) (by omega)
  refine ⟨s, c, hs, hc, ?_, ?_, fun h12 => ?_⟩
  · exact lt_of_le_of_lt (le_trans hs11 (abs_pow_div_factorial_le θ _ habs 11)) pi_pow_11
  · exact lt_of_le_of_lt (le_trans hc12 (abs_pow_div_factorial_le θ _ habs 12)) pi_pow_12
  · have h12' : 12 ≤ t := by exact_mod_cast h12
    obtain ⟨s', hs', hs13⟩ := taylor_sine_error θ h1 h2 f t 13 (by norm_num) (by omega)
      (by omega)
    obtain ⟨c', hc', hc14⟩ := taylor_cosine_error θ h1 h2 f t 14 (by norm_num) (by omega)
    rw [hs, Option.some.injEq] at hs'
    rw [hc, Option.some.injEq] at hc'
    rw [← hs'] at hs13
    rw [← hc'] at hc14
    constructor
    · exact lt_of_le_of_lt (le_trans hs13 (abs_pow_div_factorial_le θ _ habs 13)) pi_pow_13
    · exact lt_of_le_of_lt (le_trans hc14 (abs_pow_div_factorial_le θ _ habs 14)) pi_pow_14

theorem taylor_accuracy_witness :
    (-Real.pi ≤ 1 ∧ (1 : ℝ) ≤ Real.pi ∧ (10 : ℤ) ≤ 10 ∧ 1 ≤ 1) ∧
    ∃ s c : ℝ, taylor_sine id Real.pi 1 1 10 = some s ∧
      taylor_cosine id Real.pi 1 1 10 = some c ∧
      |s - Real.sin 1| < 8 / 1000 ∧ |c - Real.cos 1| < 2 / 1000 := by
  have hp := Real.pi_gt_three
  obtain ⟨s, c, hs, hc, h8, h2, -⟩ :=
    taylor_accuracy 1 10 1 (by linarith) (by linarith) (by norm_num) le_rfl
  exact ⟨⟨by linarith, by linarith, by norm_num, le_rfl⟩, s, c, hs, hc, h8, h2⟩

theorem taylor_sine_pi_ten (fuel : ℕ) :
    taylor_sine id Real.pi (fuel + 1) Real.pi 10
      = some (Real.pi - Real.pi ^ 3 / 6 + Real.pi ^ 5 / 120 - Real.pi ^ 7 / 5040
          + Real.pi ^ 9 / 362880) := by
  have h := taylor_sine_eq_sum Real.pi (fuel + 1) Real.pi Real.pi 10
    (normalize_of_mem id Real.pi fuel Real.pi (by linarith [Real.pi_pos]) le_rfl)
  rw [Nat.cast_ofNat] at h
  rw [h]
  congr 1
  norm_num [Finset.sum_range_succ, Nat.factorial]
  ring

theorem taylor_cosine_pi_ten (fuel : ℕ) :
    taylor_cosine id Real.pi (fuel + 1) Real.pi 10
      = some (1 - Real.pi ^ 2 / 2 + Real.pi ^ 4 / 24 - Real.pi ^ 6 / 720
          + Real.pi ^ 8 / 40320 - Real.pi ^ 10 / 3628800) := by
  have h := taylor_cosine_eq_sum Real.pi (fuel + 1) Real.pi Real.pi 10
    (normalize_of_mem id Real.pi fuel Real.pi (by linarith [Real.pi_pos]) le_rfl)
  rw [Nat.cast_ofNat] at h
  rw [h]
  congr 1
  norm_num [Finset.sum_range_succ, Nat.factorial]
  ring

/-- C1, as stated, fails at `θ = π` with `terms = 10`: in exact real arithmetic the sine
series is more than `6e-3` above `sin π = 0` and the cosine series more than `1.8e-3`
below `cos π = -1`. -/
theorem taylor_error_at_pi :
    (-Real.pi ≤ Real.pi ∧ Real.pi ≤ Real.pi ∧ (10 : ℤ) ≤ 10) ∧
    ∀ fuel : ℕ, ∃ s c : ℝ, taylor_sine id Real.pi (fuel + 1) Real.pi 10 = some s ∧
      taylor_cosine id Real.pi (fuel + 1) Real.pi 10 = some c ∧
      ¬ |s - Real.sin Real.pi| < 1 / 1000 ∧ ¬ |c - Real.cos Real.pi| < 1 / 1000 ∧
      6 / 1000 < s - Real.sin Real.pi ∧ c - Real.cos Real.pi < -(18 / 10000) := by
  have l1 := pi_pow_lower 1
  have l2 := pi_pow_lower 2
  have l4 := pi_pow_lower 4
  have l5 := pi_pow_lower 5
  have l6 := pi_pow_lower 6
  have l9 := pi_pow_lower 9
  have l10 := pi_pow_lower 10
  have u2 := pi_pow_upper 2
  have u3 := pi_pow_upper 3
  have u4 := pi_pow_upper 4
  have u7 := pi_pow_upper 7
  have u8 := pi_pow_upper 8
  norm_num at l1 l2 l4 l5 l6 l9 l10 u2 u3 u4 u7 u8
  refine ⟨⟨by linarith [Real.pi_pos], le_rfl, le_rfl⟩, fun fuel => ?_⟩
  refine ⟨_, _, taylor_sine_pi_ten fuel, taylor_cosine_pi_ten fuel, ?_, ?_, ?_, ?_⟩
  · rw [Real.sin_pi, abs_lt]; intro h; linarith [h.2]
  · rw [Real.cos_pi, abs_lt]; intro h; linarith [h.1]
  · rw [Real.sin_pi]; linarith
  · rw [Real.cos_pi]; linarith

/-- C7. At `θ = π / 2` with `terms = 10`, in exact real arithmetic `taylor_sine` returns a
value within `1e-3` of `1.0` and `taylor_cosine` a value within `1e-3` of `0.0`. -/
theorem taylor_at_half_pi (fuel : ℕ) :
    ∃ s c : ℝ, taylor_sine id Real.pi (fuel + 1) (Real.pi / 2) 10 = some s ∧
      taylor_cosine id Real.pi (fuel + 1) (Real.pi / 2) 10 = some c ∧
      |s - 1| < 1 / 1000 ∧ |c - 0| < 1 / 1000 := by
  have hp := Real.pi_pos
  have h1 : -Real.pi ≤ Real.pi / 2 := by linarith
  have h2 : Real.pi / 2 ≤ Real.pi := by linarith
  have habs : |Real.pi / 2| ≤ 2 := by
    rw [abs_of_nonneg (by linarith)]
    linarith [Real.pi_le_four]
  obtain ⟨s, hs, hs'⟩ := taylor_sine_error (Real.pi / 2) h1 h2 fuel 10 11 (by norm_num)
    (by norm_num) (by norm_num)
  obtain ⟨c, hc, hc'⟩ := taylor_cosine_error (Real.pi / 2) h1 h2 fuel 10 12 (by norm_num)
    (by norm_num)
  have hs2 := le_trans hs' (abs_pow_div_factorial_le _ _ habs 11)
  have hc2 := le_trans hc' (abs_pow_div_factorial_le _ _ habs 12)
  rw [Nat.cast_ofNat] at hs hc
  rw [Real.sin_pi_div_two] at hs2
  rw [Real.cos_pi_div_two] at hc2
  refine ⟨s, c, hs, hc, ?_, ?_⟩
  · refine lt_of_le_of_lt hs2 ?_
    norm_num [Nat.factorial]
  · refine lt_of_le_of_lt hc2 ?_
    norm_num [Nat.factorial]

end AccuracyClaims

/-! ## Point generation: contents of the buffer and independence of the thread count -/

section PointClaims

theorem serial_runtime_fair (n : ℕ) (terms : ℤ) (num_threads : ℕ) :
    serial_runtime.Fair n terms num_threads :=
  ⟨fair_one_thread _, fun _ => fair_one_thread _, fun _ => fair_one_thread _⟩

theorem loop_iterations_taylor_terms :
    loop_iterations TAYLOR_TERMS 1 = [1, 3, 5, 7, 9] ∧
      loop_iterations TAYLOR_TERMS 0 = [0, 2, 4, 6, 8, 10] := by
  have h1 := loop_iterations_spec 10 5 1 rfl
  have h0 := loop_iterations_spec 10 6 0 rfl
  rw [Nat.cast_ofNat] at h1 h0
  exact ⟨h1, h0⟩

theorem round_robin_runtime_fair : round_robin_runtime.Fair 4 TAYLOR_TERMS 2 := by
  refine ⟨?_, fun i => ?_, fun i => ?_⟩
  · rw [Fair]; decide
  · rw [Fair, loop_iterations_taylor_terms.1]
    simp only [round_robin_runtime]
    decide
  · rw [Fair, loop_iterations_taylor_terms.2]
    simp only [round_robin_runtime]
    decide

variable {α : Type} [LinearOrderedField α]

variable [FloorRing α]

/-- C4. For every centre and radius and every rounding of the `double` operations,
`compute_circle_points` with the exact backend returns and leaves the same buffer, of
length `N`, with `num_threads = K` as with `num_threads = 1`, for every `K` and in
particular every `K > 1`, whatever the fair sharing of the points among the threads and the
previous content of the buffer. -/
theorem exact_backend_thread_count (n : ℕ) (fl : α → α) (pi : α) (sin cos : α → α)
    (fuel : ℕ) (center_x center_y radius : ℤ) (points points' : List SDL_Point) (K : ℕ)
    (rt rt' : Runtime) (h : Fair (rt.share_points K) (List.range n))
    (h' : Fair (rt'.share_points 1) (List.range n)) :
    compute_circle_points n fl pi sin cos fuel center_x center_y radius points false K rt
      = compute_circle_points n fl pi sin cos fuel center_x center_y radius points' false 1
          rt' ∧
    ∃ buf : List SDL_Point,
      compute_circle_points n fl pi sin cos fuel center_x center_y radius points false K rt
        = some buf ∧ buf.length = n := by
  have hK := compute_circle_points_eq_map n fl pi sin cos fuel center_x center_y radius
    points false K rt
    (fun i => make_point fl center_x center_y radius (cos (circle_angle n fl pi i))
      (sin (circle_angle n fl pi i))) h
    (fun i _ => circle_point_exact n fl pi sin cos fuel center_x center_y radius K rt i)
  have h1 := compute_circle_points_eq_map n fl pi sin cos fuel center_x center_y radius
    points' false 1 rt'
    (fun i => make_point fl center_x center_y radius (cos (circle_angle n fl pi i))
      (sin (circle_angle n fl pi i))) h'
    (fun i _ => circle_point_exact n fl pi sin cos fuel center_x center_y radius 1 rt' i)
  refine ⟨by rw [hK, h1], _, hK, ?_⟩
  rw [List.length_map, List.length_range]

/-- C5. For every centre, radius and thread count `K`, in particular `K > 1`, and every
fair way to share the points and the exponents of the series among the threads and to
combine the partial sums, in exact arithmetic the Taylor backend with `num_threads = K`
returns and leaves the same buffer as with `num_threads = 1`: at every index the two
points differ by `0`, hence by at most `1`, in each coordinate. -/
theorem taylor_backend_thread_count (n : ℕ) (pi : α) (sin cos : α → α) (fuel : ℕ)
    (center_x center_y radius : ℤ) (points points' : List SDL_Point) (K : ℕ)
    (rt rt' : Runtime) (hpi : 0 < pi) (hf : 2 ≤ fuel) (h : rt.Fair n TAYLOR_TERMS K)
    (h' : rt'.Fair n TAYLOR_TERMS 1) :
    compute_circle_points n id pi sin cos fuel center_x center_y radius points true K rt
      = compute_circle_points n id pi sin cos fuel center_x center_y radius points' true 1
          rt' ∧
    ∃ buf buf' : List SDL_Point,
      compute_circle_points n id pi sin cos fuel center_x center_y radius points true K rt
        = some buf ∧
      compute_circle_points n id pi sin cos fuel center_x center_y radius points' true 1 rt'
        = some buf' ∧
      buf.length = n ∧
      ∀ i : ℕ, i < n → ∃ p q : SDL_Point,
        buf[i]? = some p ∧ buf'[i]? = some q ∧ |p.x - q.x| ≤ 1 ∧ |p.y - q.y| ≤ 1 := by
  obtain ⟨f, rfl⟩ : ∃ f, fuel = f + 2 := ⟨fuel - 2, by omega⟩
  have hvalues : ∀ (num_threads : ℕ) (r : Runtime), r.Fair n TAYLOR_TERMS num_threads →
      ∀ i : ℕ, i < n →
      circle_point n id pi sin cos (f + 2) center_x center_y radius true num_threads r i
        = (taylor_cosine id pi (f + 2) (circle_angle n id pi i) TAYLOR_TERMS).bind
            fun c => (taylor_sine id pi (f + 2) (circle_angle n id pi i) TAYLOR_TERMS).map
              fun s => make_point id center_x center_y radius c s := by
    intro num_threads r hr i hi
    obtain ⟨c, s, hc, hs, hv⟩ := trig_values_taylor n pi hpi sin cos f num_threads r i hi
      (hr.2.1 i) (hr.2.2 i)
    rw [circle_point, hv, hc, hs]
    rfl
  have hsome : ∀ i : ℕ, i < n → ∃ p : SDL_Point,
      (taylor_cosine id pi (f + 2) (circle_angle n id pi i) TAYLOR_TERMS).bind
          (fun c => (taylor_sine id pi (f + 2) (circle_angle n id pi i) TAYLOR_TERMS).map
            fun s => make_point id center_x center_y radius c s) = some p := by
    intro i hi
    obtain ⟨c, s, hc, hs, -⟩ := trig_values_taylor n pi hpi sin cos f 1 rt' i hi
      (h'.2.1 i) (h'.2.2 i)
    exact ⟨_, by rw [hc, hs]; rfl⟩
  choose g hg using hsome
  have hK := compute_circle_points_eq_map n id pi sin cos (f + 2) center_x center_y radius
    points true K rt (fun i => if hi : i < n then g i hi else ⟨0, 0⟩) h.1
    (fun i hi => by rw [hvalues K rt h i hi, hg i hi]; simp only [dif_pos hi])
  have h1 := compute_circle_points_eq_map n id pi sin cos (f + 2) center_x center_y radius
    points' true 1 rt' (fun i => if hi : i < n then g i hi else ⟨0, 0⟩) h'.1
    (fun i hi => by rw [hvalues 1 rt' h' i hi, hg i hi]; simp only [dif_pos hi])
  refine ⟨by rw [hK, h1], _, _, hK, h1, by rw [List.length_map, List.length_range],
    fun i hi => ?_⟩
  refine ⟨g i hi, g i hi, ?_, ?_, by simp, by simp⟩
  · rw [List.getElem?_map, List.getElem?_range hi, Option.map_some']
    simp only [dif_pos hi]
  · rw [List.getElem?_map, List.getElem?_range hi, Option.map_some']
    simp only [dif_pos hi]

end PointClaims

section PointWitnesses

theorem exact_backend_thread_count_witness :
    (Fair (round_robin_runtime.share_points 2) (List.range 4) ∧
      Fair (serial_runtime.share_points 1) (List.range 4)) ∧
    compute_circle_points 4 round_double (M_PI_double : ℝ) Real.sin Real.cos 0 400 400 100 []
        false 2 round_robin_runtime
      = compute_circle_points 4 round_double (M_PI_double : ℝ) Real.sin Real.cos 0 400 400 100
        [] false 1 serial_runtime :=
  ⟨⟨round_robin_runtime_fair.1, fair_one_thread _⟩,
    (exact_backend_thread_count 4 round_double (M_PI_double : ℝ) Real.sin Real.cos 0 400 400
      100 [] [] 2 round_robin_runtime serial_runtime round_robin_runtime_fair.1
      (fair_one_thread _)).1⟩

theorem taylor_backend_thread_count_witness :
    ((0 : ℝ) < Real.pi ∧ 2 ≤ 2 ∧ round_robin_runtime.Fair 4 TAYLOR_TERMS 2 ∧
      serial_runtime.Fair 4 TAYLOR_TERMS 1) ∧
    compute_circle_points 4 id Real.pi Real.sin Real.cos 2 400 400 100 [] true 2
        round_robin_runtime
      = compute_circle_points 4 id Real.pi Real.sin Real.cos 2 400 400 100 [] true 1
        serial_runtime :=
  ⟨⟨Real.pi_pos, le_rfl, round_robin_runtime_fair, serial_runtime_fair 4 TAYLOR_TERMS 1⟩,
    (taylor_backend_thread_count 4 Real.pi Real.sin Real.cos 2 400 400 100 [] [] 2
      round_robin_runtime serial_runtime Real.pi_pos le_rfl round_robin_runtime_fair
      (serial_runtime_fair 4 TAYLOR_TERMS 1)).1⟩

end PointWitnesses

/-! ## Point generation: distance from the centre -/

section DistanceClaims

theorem compute_circle_points_exact_getElem? (n : ℕ) (fl : ℝ → ℝ) (pi : ℝ)
    (sin cos : ℝ → ℝ) (fuel : ℕ) (center_x center_y radius : ℤ) (points : List SDL_Point)
    (num_threads : ℕ) (rt : Runtime)
    (h : Fair (rt.share_points num_threads) (List.range n)) (i : ℕ) (hi : i < n) :
    ∃ buf : List SDL_Point,
      compute_circle_points n fl pi sin cos fuel center_x center_y radius points false
          num_threads rt = some buf ∧
      buf[i]? = some (make_point fl center_x center_y radius (cos (circle_angle n fl pi i))
        (sin (circle_angle n fl pi i))) := by
  refine ⟨_, compute_circle_points_eq_map n fl pi sin cos fuel center_x center_y radius
    points false num_threads rt _ h
    (fun j _ => circle_point_exact n fl pi sin cos fuel center_x center_y radius
      num_threads rt j), ?_⟩
  rw [List.getElem?_map, List.getElem?_range hi, Option.map_some']

/-- C10, as the code behaves. For every index `i < N`, every centre and every radius for
which no conversion to `int` or `int` addition overflows, the point that
`compute_circle_points` stores at index `i` with the exact backend is never farther from
the centre than the offset `(u, v) = (radius * cos, radius * sin)` that the code computes
in `double`, and is less than `√2` short of it: its distance `d` from the centre satisfies
`‖(u, v)‖ - √2 < d ≤ ‖(u, v)‖`, whatever the rounding. In exact real arithmetic
`‖(u, v)‖ = radius`, so that for `radius ≥ 0` the point is never outside the ideal circle
and less than `√2` inside it, `radius - √2 < d ≤ radius`. -/
theorem exact_point_inside_circle (n : ℕ) (center_x center_y radius : ℤ)
    (points : List SDL_Point) (num_threads : ℕ) (rt : Runtime) (i : ℕ) (hi : i < n)
    (h : Fair (rt.share_points num_threads) (List.range n)) :
    (∀ (fl : ℝ → ℝ) (pi : ℝ) (sin cos : ℝ → ℝ) (fuel : ℕ),
      no_overflow fl center_x center_y radius (cos (circle_angle n fl pi i))
        (sin (circle_angle n fl pi i)) →
      ∃ (buf : List SDL_Point) (p : SDL_Point),
        compute_circle_points n fl pi sin cos fuel center_x center_y radius points false
            num_threads rt = some buf ∧
        buf[i]? = some p ∧
        Real.sqrt (fl ((radius : ℝ) * cos (circle_angle n fl pi i)) ^ 2
            + fl ((radius : ℝ) * sin (circle_angle n fl pi i)) ^ 2) - Real.sqrt 2
          < Real.sqrt (dist_sq p center_x center_y) ∧
        Real.sqrt (dist_sq p center_x center_y)
          ≤ Real.sqrt (fl ((radius : ℝ) * cos (circle_angle n fl pi i)) ^ 2
            + fl ((radius : ℝ) * sin (circle_angle n fl pi i)) ^ 2)) ∧
    (0 ≤ radius →
      no_overflow id center_x center_y radius (Real.cos (circle_angle n id Real.pi i))
        (Real.sin (circle_angle n id Real.pi i)) →
      ∀ fuel : ℕ, ∃ (buf : List SDL_Point) (p : SDL_Point),
        compute_circle_points n id Real.pi Real.sin Real.cos fuel center_x center_y radius
            points false num_threads rt = some buf ∧
        buf[i]? = some p ∧
        (radius : ℝ) - Real.sqrt 2 < Real.sqrt (dist_sq p center_x center_y) ∧
        Real.sqrt (dist_sq p center_x center_y) ≤ radius) := by
  constructor
  · intro fl pi sin cos fuel hno
    obtain ⟨buf, hbuf, hp⟩ := compute_circle_points_exact_getElem? n fl pi sin cos fuel
      center_x center_y radius points num_threads rt h i hi
    exact ⟨buf, _, hbuf, hp, make_point_distance fl center_x center_y radius _ _ hno⟩
  · intro hr hno fuel
    obtain ⟨buf, hbuf, hp⟩ := compute_circle_points_exact_getElem? n id Real.pi Real.sin
      Real.cos fuel center_x center_y radius points num_threads rt h i hi
    have hd := make_point_distance id center_x center_y radius _ _ hno
    rw [exact_offset_length radius hr] at hd
    exact ⟨buf, _, hbuf, hp, hd⟩

theorem exact_point_inside_circle_witness :
    ((7 : ℕ) < 3600000 ∧ Fair (serial_runtime.share_points 1) (List.range 3600000) ∧
      (0 : ℤ) ≤ 266 ∧
      no_overflow id 400 400 266 (Real.cos (circle_angle 3600000 id Real.pi 7))
        (Real.sin (circle_angle 3600000 id Real.pi 7))) ∧
    ∃ (buf : List SDL_Point) (p : SDL_Point),
      compute_circle_points 3600000 id Real.pi Real.sin Real.cos 0 400 400 266 [] false 1
          serial_runtime = some buf ∧
      buf[7]? = some p ∧
      ((266 : ℤ) : ℝ) - Real.sqrt 2 < Real.sqrt (dist_sq p 400 400) ∧
      Real.sqrt (dist_sq p 400 400) ≤ ((266 : ℤ) : ℝ) := by
  have hno := no_overflow_exact 400 400 266 (by norm_num) (by norm_num) (by norm_num)
    (circle_angle 3600000 id Real.pi 7)
  exact ⟨⟨by norm_num, fair_one_thread _, by norm_num, hno⟩,
    (exact_point_inside_circle 3600000 400 400 266 [] 1 serial_runtime 7 (by norm_num)
      (fair_one_thread _)).2 (by norm_num) hno 0⟩

/-- C2, as the code behaves. For every index `i < N`, every centre and every radius for
which no conversion to `int` or `int` addition overflows, the point that
`compute_circle_points` stores at index `i` with the exact backend lies at a distance `d`
from the centre with `radius - √2 - η < d ≤ radius + η`, where `η` bounds the error of
the length of the offset `(radius * cos, radius * sin)` that the code computes in
`double`. In exact real arithmetic `η = 0`, so that for `radius > 0`
`radius - √2 < d ≤ radius + 1`: truncating both coordinates can bring the point more than
`1`, but less than `√2`, inside the circle. -/
theorem exact_point_near_circle (n : ℕ) (center_x center_y radius : ℤ)
    (points : List SDL_Point) (num_threads : ℕ) (rt : Runtime) (i : ℕ) (hi : i < n)
    (h : Fair (rt.share_points num_threads) (List.range n)) :
    (∀ (fl : ℝ → ℝ) (pi : ℝ) (sin cos : ℝ → ℝ) (fuel : ℕ) (η : ℝ),
      no_overflow fl center_x center_y radius (cos (circle_angle n fl pi i))
        (sin (circle_angle n fl pi i)) →
      |Real.sqrt (fl ((radius : ℝ) * cos (circle_angle n fl pi i)) ^ 2
          + fl ((radius : ℝ) * sin (circle_angle n fl pi i)) ^ 2) - (radius : ℝ)| ≤ η →
      ∃ (buf : List SDL_Point) (p : SDL_Point),
        compute_circle_points n fl pi sin cos fuel center_x center_y radius points false
            num_threads rt = some buf ∧
        buf[i]? = some p ∧
        (radius : ℝ) - Real.sqrt 2 - η < Real.sqrt (dist_sq p center_x center_y) ∧
        Real.sqrt (dist_sq p center_x center_y) ≤ (radius : ℝ) + η) ∧
    (0 < radius →
      no_overflow id center_x center_y radius (Real.cos (circle_angle n id Real.pi i))
        (Real.sin (circle_angle n id Real.pi i)) →
      ∀ fuel : ℕ, ∃ (buf : List SDL_Point) (p : SDL_Point),
        compute_circle_points n id Real.pi Real.sin Real.cos fuel center_x center_y radius
            points false num_threads rt = some buf ∧
        buf[i]? = some p ∧
        (radius : ℝ) - Real.sqrt 2 < Real.sqrt (dist_sq p center_x center_y) ∧
        Real.sqrt (dist_sq p center_x center_y) ≤ (radius : ℝ) + 1) := by
  constructor
  · intro fl pi sin cos fuel η hno hη
    obtain ⟨buf, hbuf, hp⟩ := compute_circle_points_exact_getElem? n fl pi sin cos fuel
      center_x center_y radius points num_threads rt h i hi
    have hd := make_point_distance fl center_x center_y radius _ _ hno
    rw [abs_le] at hη
    exact ⟨buf, _, hbuf, hp, by linarith [hd.1, hη.1], by linarith [hd.2, hη.2]⟩
  · intro hr hno fuel
    obtain ⟨buf, hbuf, hp⟩ := compute_circle_points_exact_getElem? n id Real.pi Real.sin
      Real.cos fuel center_x center_y radius points num_threads rt h i hi
    have hd := make_point_distance id center_x center_y radius _ _ hno
    rw [exact_offset_length radius hr.le] at hd
    exact ⟨buf, _, hbuf, hp, hd.1, by linarith [hd.2]⟩

theorem exact_point_near_circle_witness :
    ((45 : ℕ) < 360 ∧ Fair (serial_runtime.share_points 1) (List.range 360) ∧
      (0 : ℤ) < 100 ∧
      no_overflow id 400 400 100 (Real.cos (circle_angle 360 id Real.pi 45))
        (Real.sin (circle_angle 360 id Real.pi 45))) ∧
    ∃ (buf : List SDL_Point) (p : SDL_Point),
      compute_circle_points 360 id Real.pi Real.sin Real.cos 0 400 400 100 [] false 1
          serial_runtime = some buf ∧
      buf[45]? = some p ∧
      ((100 : ℤ) : ℝ) - Real.sqrt 2 < Real.sqrt (dist_sq p 400 400) ∧
      Real.sqrt (dist_sq p 400 400) ≤ ((100 : ℤ) : ℝ) + 1 := by
  have hno := no_overflow_exact 400 400 100 (by norm_num) (by norm_num) (by norm_num)
    (circle_angle 360 id Real.pi 45)
  exact ⟨⟨by norm_num, fair_one_thread _, by norm_num, hno⟩,
    (exact_point_near_circle 360 400 400 100 [] 1 serial_runtime 45 (by norm_num)
      (fair_one_thread _)).2 (by norm_num) hno 0⟩

theorem static_cast_int_fifty_sqrt_two : static_cast_int (50 * Real.sqrt 2) = 70 := by
  have h0 : (0 : ℝ) ≤ Real.sqrt 2 := Real.sqrt_nonneg 2
  have hsq : Real.sqrt 2 ^ 2 = 2 := Real.sq_sqrt (by norm_num)
  have hlo : (14 / 10 : ℝ) ≤ Real.sqrt 2 := by nlinarith
  have hhi : Real.sqrt 2 < 142 / 100 := by nlinarith
  apply static_cast_int_eq _ 70 (by positivity)
  · push_cast; linarith
  · push_cast; linarith

theorem make_point_at_eighth_turn (n : ℕ) (i : ℕ) (hn : (n : ℝ) = 8 * (i : ℝ))
    (hi : 0 < i) :
    make_point id 400 400 100 (Real.cos (circle_angle n id Real.pi i))
        (Real.sin (circle_angle n id Real.pi i))
      = ⟨470, 470⟩ := by
  have hi' : (0 : ℝ) < (i : ℝ) := by exact_mod_cast hi
  have hθ : circle_angle n id Real.pi i = Real.pi / 4 := by
    rw [circle_angle_exact, hn]; field_simp; ring
  rw [hθ, Real.cos_pi_div_four, Real.sin_pi_div_four]
  have e : id (((100 : ℤ) : ℝ) * (Real.sqrt 2 / 2)) = 50 * Real.sqrt 2 := by
    rw [id_eq]; push_cast; ring
  simp only [make_point, e, static_cast_int_fifty_sqrt_two]
  decide

/-- C2, as stated, fails in its own scenario: with radius `100` and centre `(400, 400)` the
exact backend stores `(470, 470)` at the eighth of the turn, index `45` of `N = 360` and
index `450000` of `N = NUM_POINTS`, at distance `√9800 < 99 = radius - 1` from the
centre. -/
theorem scenario_point_inside_margin :
    (∃ buf : List SDL_Point,
      compute_circle_points 360 id Real.pi Real.sin Real.cos 0 400 400 100 [] false 1
          serial_runtime = some buf ∧ buf[45]? = some ⟨470, 470⟩) ∧
    (∃ buf : List SDL_Point,
      compute_circle_points NUM_POINTS id Real.pi Real.sin Real.cos 0 400 400 100 [] false 1
          serial_runtime = some buf ∧ buf[450000]? = some ⟨470, 470⟩) ∧
    dist_sq ⟨470, 470⟩ 400 400 = 9800 ∧
    ¬ ((100 : ℝ) - 1 ≤ Real.sqrt (dist_sq ⟨470, 470⟩ 400 400)) := by
  refine ⟨?_, ?_, by decide, ?_⟩
  · obtain ⟨buf, hbuf, hp⟩ := compute_circle_points_exact_getElem? 360 id Real.pi Real.sin
      Real.cos 0 400 400 100 [] 1 serial_runtime (fair_one_thread _) 45 (by norm_num)
    rw [make_point_at_eighth_turn 360 45 (by norm_num) (by norm_num)] at hp
    exact ⟨buf, hbuf, hp⟩
  · obtain ⟨buf, hbuf, hp⟩ := compute_circle_points_exact_getElem? NUM_POINTS id Real.pi
      Real.sin Real.cos 0 400 400 100 [] 1 serial_runtime (fair_one_thread _) 450000
      (by norm_num [NUM_POINTS])
    rw [make_point_at_eighth_turn NUM_POINTS 450000 (by norm_num [NUM_POINTS])
      (by norm_num)] at hp
    exact ⟨buf, hbuf, hp⟩
  · have hd : dist_sq ⟨470, 470⟩ 400 400 = 9800 := by decide
    rw [hd, not_le]
    have : Real.sqrt ((9800 : ℤ) : ℝ) < 99 := by
      rw [Real.sqrt_lt' (by norm_num)]
      norm_num
    linarith

end DistanceClaims

/-! ## Point generation in binary64 arithmetic -/

section DoublePoints

/-- In binary64 arithmetic, with a `sin` and a `cos` that are within `ε ≤ 1` of the exact
sine and cosine of the angle the code computes, the point that the exact backend stores
at index `i` is at a distance `d` from the centre with
`radius - √2 - η < d ≤ radius + η` for `η = 2 * radius * (ε + 2 ^ (-52))`, when no
conversion to `int` or `int` addition overflows. -/
theorem double_point_near_circle (n : ℕ) (center_x center_y radius : ℤ)
    (points : List SDL_Point) (num_threads : ℕ) (rt : Runtime) (i : ℕ) (hi : i < n)
    (h : Fair (rt.share_points num_threads) (List.range n)) (hr : 0 ≤ radius)
    (pi : ℝ) (sin cos : ℝ → ℝ) (fuel : ℕ) (ε : ℝ) (hε : ε ≤ 1)
    (hcos : |cos (circle_angle n round_double pi i)
      - Real.cos (circle_angle n round_double pi i)| ≤ ε)
    (hsin : |sin (circle_angle n round_double pi i)
      - Real.sin (circle_angle n round_double pi i)| ≤ ε)
    (hno : no_overflow round_double center_x center_y radius
      (cos (circle_angle n round_double pi i)) (sin (circle_angle n round_double pi i))) :
    ∃ (buf : List SDL_Point) (p : SDL_Point),
      compute_circle_points n round_double pi sin cos fuel center_x center_y radius points
          false num_threads rt = some buf ∧
      buf[i]? = some p ∧
      (radius : ℝ) - Real.sqrt 2 - 2 * (radius : ℝ) * (ε + 1 / 2 ^ 52)
        < Real.sqrt (dist_sq p center_x center_y) ∧
      Real.sqrt (dist_sq p center_x center_y)
        ≤ (radius : ℝ) + 2 * (radius : ℝ) * (ε + 1 / 2 ^ 52) := by
  obtain ⟨buf, hbuf, hp⟩ := compute_circle_points_exact_getElem? n round_double pi sin cos
    fuel center_x center_y radius points num_threads rt h i hi
  have hd := make_point_distance round_double center_x center_y radius _ _ hno
  have hη := double_offset_length radius hr _ _ _ ε hcos hsin hε
  rw [abs_le] at hη
  exact ⟨buf, _, hbuf, hp, by linarith [hd.1, hη.1], by linarith [hd.2, hη.2]⟩

/-- The scenario of `main` in binary64 arithmetic with a correctly rounded `sin` and
`cos`: every point is stored, without overflow, at a distance from the centre between
`266 - √2 - 2 ^ (-41)` and `266 + 2 ^ (-41)`. -/
theorem double_point_near_circle_main (i : ℕ) (hi : i < NUM_POINTS) (points : List SDL_Point)
    (num_threads : ℕ) (rt : Runtime)
    (h : Fair (rt.share_points num_threads) (List.range NUM_POINTS)) (fuel : ℕ) :
    ∃ (buf : List SDL_Point) (p : SDL_Point),
      compute_circle_points NUM_POINTS round_double (M_PI_double : ℝ)
          (fun t => round_double (Real.sin t)) (fun t => round_double (Real.cos t)) fuel
          main_circle.1 main_circle.2.1 main_circle.2.2 points false num_threads rt
        = some buf ∧
      buf[i]? = some p ∧
      (266 : ℝ) - Real.sqrt 2 - 1 / 2 ^ 41 < Real.sqrt (dist_sq p 400 400) ∧
      Real.sqrt (dist_sq p 400 400) ≤ (266 : ℝ) + 1 / 2 ^ 41 := by
  have hmain : main_circle = (400, 400, 266) := by decide
  have hc : ∀ t : ℝ, |round_double (Real.cos t) - Real.cos t| ≤ 1 / 2 ^ 53 := fun t =>
    le_trans (round_double_error _)
      (div_le_div_of_nonneg_right (Real.abs_cos_le_one t) (by positivity))
  have hs : ∀ t : ℝ, |round_double (Real.sin t) - Real.sin t| ≤ 1 / 2 ^ 53 := fun t =>
    le_trans (round_double_error _)
      (div_le_div_of_nonneg_right (Real.abs_sin_le_one t) (by positivity))
  have hno := no_overflow_double 400 400 266 (by norm_num) (by norm_num) (by norm_num)
    _ _ _ (1 / 2 ^ 53) (hc (circle_angle NUM_POINTS round_double (M_PI_double : ℝ) i))
    (hs (circle_angle NUM_POINTS round_double (M_PI_double : ℝ) i)) (by norm_num)
  obtain ⟨buf, p, hbuf, hp, h1, h2⟩ := double_point_near_circle NUM_POINTS 400 400 266 points
    num_threads rt i hi h (by norm_num) (M_PI_double : ℝ)
    (fun t => round_double (Real.sin t)) (fun t => round_double (Real.cos t)) fuel
    (1 / 2 ^ 53) (by norm_num) (hc _) (hs _) hno
  rw [hmain]
  refine ⟨buf, p, hbuf, hp, ?_, ?_⟩
  · have e : (((266 : ℤ) : ℝ)) = 266 := by norm_num
    rw [e] at h1
    have : (2 : ℝ) * 266 * (1 / 2 ^ 53 + 1 / 2 ^ 52) ≤ 1 / 2 ^ 41 := by norm_num
    linarith
  · have e : (((266 : ℤ) : ℝ)) = 266 := by norm_num
    rw [e] at h2
    have : (2 : ℝ) * 266 * (1 / 2 ^ 53 + 1 / 2 ^ 52) ≤ 1 / 2 ^ 41 := by norm_num
    linarith

theorem round_double_sin_sixth :
    round_double (Real.sin (4716158501352293 / 4503599627370496))
      = 3900231685776981 / 4503599627370496 := by
  obtain ⟨hl, hu⟩ := sin_sixth_bounds
  apply round_double_pos _ (-1) 7800463371553962
  · linarith
  · norm_num; linarith
  · norm_num; linarith
  · norm_num; linarith
  · norm_num; linarith
  · norm_num

theorem round_double_cos_sixth :
    round_double (Real.cos (4716158501352293 / 4503599627370496))
      = 4503599627370497 / 9007199254740992 := by
  obtain ⟨hl, hu⟩ := cos_sixth_bounds
  apply round_double_pos _ (-1) 4503599627370497
  · linarith
  · norm_num; linarith
  · norm_num; linarith
  · norm_num; linarith
  · norm_num; linarith
  · norm_num

/-- In binary64 the product of the radius `219105150` and the sine of the sixth of the
turn rounds up to the integer `189750626`, which the exact product does not reach. -/
theorem rounded_product_sin :
    round_double (((219105150 : ℤ) : ℝ) * (3900231685776981 / 4503599627370496))
        = 189750626 ∧
      ((219105150 : ℤ) : ℝ) * (3900231685776981 / 4503599627370496) < 189750626 := by
  constructor
  · apply round_double_pos _ 27 6366974477074432 <;> norm_num
  · norm_num

theorem rounded_product_cos :
    round_double (((219105150 : ℤ) : ℝ) * (4503599627370497 / 9007199254740992))
      = 3675974428262401 / 33554432 := by
  apply round_double_pos _ 26 7351948856524802 <;> norm_num

theorem make_point_sixth :
    make_point round_double 0 0 219105150
        (round_double (Real.cos (circle_angle NUM_POINTS round_double (M_PI_double : ℝ) 600000)))
        (round_double (Real.sin (circle_angle NUM_POINTS round_double (M_PI_double : ℝ) 600000)))
      = ⟨109552575, 189750626⟩ := by
  rw [circle_angle_sixth, round_double_sin_sixth, round_double_cos_sixth]
  have hx : static_cast_int (round_double (((219105150 : ℤ) : ℝ)
      * (4503599627370497 / 9007199254740992))) = 109552575 := by
    rw [rounded_product_cos]
    apply static_cast_int_eq _ 109552575 <;> norm_num
  have hy : static_cast_int (round_double (((219105150 : ℤ) : ℝ)
      * (3900231685776981 / 4503599627370496))) = 189750626 := by
    rw [rounded_product_sin.1]
    apply static_cast_int_eq _ 189750626 <;> norm_num
  simp only [make_point, hx, hy]
  decide

/-- C10, as stated, fails in binary64 arithmetic, with `M_PI` and the sine and cosine of
`math.h` correctly rounded: for radius `219105150` and centre `(0, 0)` the point of index
`600000`, the sixth of the turn, is `(109552575, 189750626)`, at a distance from the
centre whose square is `radius ^ 2 + 1`. No `int` overflows. -/
theorem double_point_outside_circle :
    (∃ buf : List SDL_Point,
      compute_circle_points NUM_POINTS round_double (M_PI_double : ℝ)
          (fun θ => round_double (Real.sin θ)) (fun θ => round_double (Real.cos θ)) 0 0 0
          219105150 [] false 1 serial_runtime = some buf ∧
      buf[600000]? = some ⟨109552575, 189750626⟩) ∧
    (fits_int 109552575 ∧ fits_int 189750626 ∧ (0 : ℤ) ≤ 219105150) ∧
    dist_sq ⟨109552575, 189750626⟩ 0 0 = 219105150 ^ 2 + 1 ∧
    ¬ (Real.sqrt (dist_sq ⟨109552575, 189750626⟩ 0 0) ≤ ((219105150 : ℤ) : ℝ)) := by
  refine ⟨?_, by decide, by decide, ?_⟩
  · obtain ⟨buf, hbuf, hp⟩ := compute_circle_points_exact_getElem? NUM_POINTS round_double
      (M_PI_double : ℝ) (fun θ => round_double (Real.sin θ))
      (fun θ => round_double (Real.cos θ)) 0 0 0 219105150 [] 1 serial_runtime
      (fair_one_thread _) 600000 (by norm_num [NUM_POINTS])
    rw [make_point_sixth] at hp
    exact ⟨buf, hbuf, hp⟩
  · have hd : dist_sq ⟨109552575, 189750626⟩ 0 0 = 219105150 ^ 2 + 1 := by decide
    rw [hd, not_le, Real.lt_sqrt (by norm_num)]
    norm_num

end DoublePoints

/-! ## The benchmark -/

section BenchmarkClaims

/-- C6. For every maximum thread count `M` with `1 ≤ M < 2 ^ 30`, for which the counter
of the doubling loops does not overflow, and when SDL starts, so that `main` reaches its
benchmark, the rows `main` prints are, in order: the serial `math.h` row with `1` thread,
the serial Taylor row with `1` thread, the parallel `math.h` rows with `2, 4, 8, ...`
threads, and the parallel Taylor rows with the same thread counts, and nothing else. The
counts `2, 4, 8, ...` are exactly the powers of two `p` with `2 ≤ p ≤ M`, in increasing
order; when `M = 1` only the two serial rows are printed. -/
theorem main_rows_spec (max_threads : ℤ) (fuel : ℕ) (h1 : 1 ≤ max_threads)
    (h2 : max_threads < 1073741824) (hf : Nat.log 2 max_threads.toNat < fuel) :
    main_rows true true true fuel max_threads
      = some ([⟨"Serial (math.h)", false, 1⟩, ⟨"Serial (Taylor)", true, 1⟩]
        ++ (List.range (Nat.log 2 max_threads.toNat)).map
            (fun k => ⟨"Parallel (math.h)", false, 2 ^ (k + 1)⟩)
        ++ (List.range (Nat.log 2 max_threads.toNat)).map
            (fun k => ⟨"Parallel (Taylor)", true, 2 ^ (k + 1)⟩)) ∧
    (main_rows true true true fuel max_threads).map (fun rows => rows.map BenchRow.threads)
      = some ([1, 1]
          ++ (List.range (Nat.log 2 max_threads.toNat)).map (fun k => (2 : ℤ) ^ (k + 1))
          ++ (List.range (Nat.log 2 max_threads.toNat)).map (fun k => (2 : ℤ) ^ (k + 1))) ∧
    (∀ p : ℤ,
      p ∈ (List.range (Nat.log 2 max_threads.toNat)).map (fun k => (2 : ℤ) ^ (k + 1))
        ↔ ∃ k : ℕ, 1 ≤ k ∧ p = 2 ^ k ∧ p ≤ max_threads) ∧
    ((List.range (Nat.log 2 max_threads.toNat)).map (fun k => (2 : ℤ) ^ (k + 1))).Pairwise
      (· < ·) ∧
    (max_threads = 1 →
      main_rows true true true fuel max_threads
        = some [⟨"Serial (math.h)", false, 1⟩, ⟨"Serial (Taylor)", true, 1⟩]) := by
  have hd := doubling_loop_eq max_threads h1 h2 fuel hf
  have hrows : main_rows true true true fuel max_threads
      = some ([⟨"Serial (math.h)", false, 1⟩, ⟨"Serial (Taylor)", true, 1⟩]
        ++ (List.range (Nat.log 2 max_threads.toNat)).map
            (fun k => ⟨"Parallel (math.h)", false, 2 ^ (k + 1)⟩)
        ++ (List.range (Nat.log 2 max_threads.toNat)).map
            (fun k => ⟨"Parallel (Taylor)", true, 2 ^ (k + 1)⟩)) := by
    simp only [main_rows, benchmark_rows, hd, Bool.not_true, Bool.false_eq_true, if_false,
      Option.some_bind, Option.map_some', List.map_map]
    rfl
  refine ⟨hrows, ?_, mem_doubling_counts max_threads h1, doubling_counts_increasing _, ?_⟩
  · rw [hrows, Option.map_some']
    simp only [List.map_append, List.map_map, List.map_cons, List.map_nil]
    rfl
  · intro he
    rw [hrows, he]
    simp

theorem main_rows_spec_witness :
    ((1 : ℤ) ≤ 8 ∧ (8 : ℤ) < 1073741824 ∧ Nat.log 2 (8 : ℤ).toNat < 4) ∧
      (main_rows true true true 4 8).map (fun rows => rows.map BenchRow.threads)
        = some [1, 1, 2, 4, 8, 2, 4, 8] := by
  have h : Nat.log 2 (8 : ℤ).toNat = 3 := by
    have : (8 : ℤ).toNat = 2 ^ 3 := by decide
    rw [this, Nat.log_pow (by norm_num)]
  refine ⟨⟨by norm_num, by norm_num, by rw [h]; norm_num⟩, ?_⟩
  rw [(main_rows_spec 8 4 (by norm_num) (by norm_num) (by rw [h]; norm_num)).2.1, h]
  decide

/-- Outside the hypotheses of C6: `main` prints no row when SDL does not start, and from
`max_threads = 2 ^ 30` on its first doubling loop never ends. -/
theorem main_rows_outside (fuel : ℕ) (max_threads : ℤ) :
    (∀ window renderer : Bool, main_rows false window renderer fuel max_threads = some []) ∧
    (∀ renderer : Bool, main_rows true false renderer fuel max_threads = some []) ∧
    main_rows true true false fuel max_threads = some [] ∧
    (1073741824 ≤ max_threads → main_rows true true true fuel max_threads = none) := by
  refine ⟨fun _ _ => rfl, fun _ => rfl, rfl, fun h => ?_⟩
  simp [main_rows, benchmark_rows, doubling_loop_overflow max_threads h fuel]

end BenchmarkClaims

end CircleDrawing
